import Mathlib

/-!
Shallow embedding of the multi-strategy order-selection optimizer from
`webapp/backend/internal/service/robot.go` (package `service`), together with
proofs of the specified properties.

Modelling conventions, justified against the Go source:

* `model.Order` carries an `int64` id and `int` weight/value.  The spec (§1)
  states the optimizer assumes well-formed input: non-negative integer weight
  and value, and every behaviour of the code branches identically for
  `capacity ≤ 0`, so weights, values and the capacity are modelled as `Nat`
  (a negative capacity takes exactly the `robotCapacity <= 0` short-circuit
  branch, the same as capacity `0`).
* `context.Context` is modelled by a single `Bool` that is `true` when the
  context is already cancelled: `ctx.Err() != nil` evaluates to that Bool and
  is constant during a call, which is the situation all cancellation claims
  quantify over.  The periodic `steps % 4096` poll inside the exact-DP inner
  loop (robot.go:570-577) can only fire when the per-item poll at the top of
  the loop (robot.go:535) already returned, so it is not modelled separately.
* Go's `sort.Slice` with comparator `ratio_i > ratio_j` is modelled by the
  stable `List.insertionSort` with the exact rational comparison
  `a.value * b.weight > b.value * a.weight` (weights are positive wherever the
  code sorts, so this is the float64 comparison without rounding; concrete
  instances used in counterexamples and witnesses have pairwise distinct
  ratios, where any comparison sort returns the same list).
* A `sync.Pool` checkout `p.Get().([]T)[:0]` truncates the pooled slice to
  length `0` before any element is read (robot.go:394,414-415,435,499-501), so
  a checkout is the pooled junk list with `List.take 0` applied; the `defer
  p.Put(...)` calls only return storage and have no value-level effect.  The
  integer tables obtained from the pool are likewise truncated and then grown
  with explicit `append(bestValue, 0)` / `append(bestPathIdx, -1)` writes
  (robot.go:511-515), so they are the all-zero / all-`-1` tables regardless of
  the pool and are embedded as the constant functions.
* DP tables are embedded as functions `Nat → Nat` (resp. `Nat → Option Nat`
  for the `-1`-sentinelled `bestPathIdx` table); the code only ever indexes
  them inside the allocated range.
* The `upperBound` computation at robot.go:517-529 writes a local variable
  that is never read afterwards, so it is omitted.
* `int(float64(maxValue) * 0.1 / float64(n))` (robot.go:204) is embedded as
  the exact `maxValue / (10 * n)` in `Nat`: for the magnitudes an `int` holds
  the float64 computation never crosses an integer boundary away from the
  exact rational value's floor.
-/

set_option maxRecDepth 16384

/-- `model.Order`: id is opaque, weight/value are the knapsack data. -/
structure Order where
  orderID : Int
  weight : Nat
  value : Nat
deriving DecidableEq, Repr, Inhabited

/-- `model.DeliveryPlan`. -/
structure DeliveryPlan where
  robotID : String
  totalWeight : Nat
  totalValue : Nat
  orders : List Order
deriving DecidableEq, Repr

/-- The only error the optimizer can produce: context cancellation. -/
inductive PlanError where
  | canceled
deriving DecidableEq, Repr

/-- `pathNode` (robot.go:129-132): one cell of the arena-allocated
reconstruction chain; `prevIdx = -1` is modelled as `none`. -/
structure PathNode where
  itemIndex : Nat
  prevIdx : Option Nat
deriving DecidableEq, Repr

/-- `memoryPool` (robot.go:22-26): pooled backing slices.  Only the contents
matter for value semantics; they are junk that every checkout truncates. -/
structure MemPool where
  intSlices : List Nat
  pathSlices : List PathNode
  orderSlices : List Order

/-- One `memPool.orderSlices.Get().([]model.Order)[:0]` checkout; `nil` pool
falls back to a fresh empty slice. -/
def checkoutOrders : Option MemPool → List Order
  | some p => p.orderSlices.take 0
  | none => []

/-- One `memPool.pathSlices.Get().([]pathNode)[:0]` checkout. -/
def checkoutPaths : Option MemPool → List PathNode
  | some p => p.pathSlices.take 0
  | none => []

def sumWeights (l : List Order) : Nat := (l.map Order.weight).sum

def sumValues (l : List Order) : Nat := (l.map Order.value).sum

/-- The comparator `float64(a.Value)/float64(a.Weight) >
float64(b.Value)/float64(b.Weight)` used by every `sort.Slice` call in
robot.go, cross-multiplied (exact for the positive weights being sorted). -/
def ratioRel (a b : Order) : Prop := b.value * a.weight < a.value * b.weight

instance : DecidableRel ratioRel := fun _ _ => Nat.decLt _ _

/-- `a` may precede `b` in the sorted output: `¬ less(b, a)`.  `sort.Slice`
guarantees exactly pairwise `ratioGe` of the result; insertion sort with this
relation is the stable realisation, matching the stable insertion sort Go's
`sort.Slice` uses on the small slices every concrete instance here has. -/
def ratioGe (a b : Order) : Prop := ¬ ratioRel b a

instance : DecidableRel ratioGe := fun _ _ => instDecidableNot

/-- `sort.Slice(..., ratio_i > ratio_j)`, modelled stably. -/
def sortByRatio (l : List Order) : List Order := List.insertionSort ratioGe l

/-- Greedy fill loop of `selectOrdersGreedy` (robot.go:160-168): walk the
ratio-sorted orders, taking each one that still fits; threads
`(currentWeight, totalValue)` and returns the taken orders in visit order. -/
def greedyFill (robotCapacity : Nat) : List Order → Nat → Nat → List Order × Nat × Nat
  | [], currentWeight, totalValue => ([], currentWeight, totalValue)
  | o :: rest, currentWeight, totalValue =>
    if currentWeight + o.weight ≤ robotCapacity then
      let r := greedyFill robotCapacity rest (currentWeight + o.weight) (totalValue + o.value)
      (o :: r.1, r.2)
    else
      greedyFill robotCapacity rest currentWeight totalValue

/-- `selectOrdersGreedy` (robot.go:141-176).  Note that the Go function
receives `ctx` but never polls it, hence never fails. -/
def selectOrdersGreedy (_ctx : Bool) (positiveOrders zeroWeightOrders : List Order)
    (robotID : String) (robotCapacity baseValue : Nat) :
    Except PlanError DeliveryPlan :=
  let ratios := positiveOrders.filter (fun o => 0 < o.weight)
  let sorted := sortByRatio ratios
  let r := greedyFill robotCapacity sorted 0 baseValue
  .ok { robotID := robotID, totalWeight := r.2.1, totalValue := r.2.2,
        orders := zeroWeightOrders ++ r.1 }

/-- The four solver tiers (spec §4.2). -/
inductive Strategy where
  | greedy | core | fptas | exact
deriving DecidableEq, Repr

/-- The strategy dispatch of `selectOrdersForDeliveryOptimized`
(robot.go:455-472), on `n = len(positiveOrders)` and the capacity. -/
def chooseStrategy (n capacity : Nat) : Strategy :=
  if n ≤ 5 ∨ capacity ≤ 20 then .greedy
  else if n ≤ 50 ∧ capacity ≤ 200 then .core
  else if 100 < n ∨ 500 < capacity then .fptas
  else .exact

/-- The strategy table exactly as the spec states it (§4.2), rows evaluated
in the listed order with the first match winning. -/
def specStrategyTable (n capacity : Nat) : Strategy :=
  if n ≤ 5 ∨ capacity ≤ 20 then .greedy
  else if n ≤ 50 ∧ capacity ≤ 200 then .core
  else if 100 < n ∨ 500 < capacity then .fptas
  else .exact

/-- Core size computation of `selectOrdersCore` (robot.go:308-314). -/
def coreSize (n : Nat) : Nat :=
  let c := n / 3
  let c := if 20 < c then 20 else c
  if c < 5 then n else c

/-- One FPTAS value-indexed relaxation row (robot.go:242-251).  The Go code
copies `dp` into `newDp` and improves `newDp[v]` for `v` ranging over
`order.Value .. maxScaledValue`, always reading the pre-item `dp`, so the row
update is this pointwise function.  The pair carries `(order, scaledValue)`. -/
def fptasRow (dp : Nat → Nat) (o : Order) (sv maxSV : Nat) : Nat → Nat :=
  fun v => if sv ≤ v ∧ v ≤ maxSV ∧ dp (v - sv) + o.weight < dp v then dp (v - sv) + o.weight
           else dp v

/-- The `parent[i]` row recorded for the same relaxation (robot.go:248). -/
def fptasParentRow (dp : Nat → Nat) (o : Order) (sv maxSV : Nat) : Nat → Bool :=
  fun v => decide (sv ≤ v ∧ v ≤ maxSV ∧ dp (v - sv) + o.weight < dp v)

/-- Item loop of `selectOrdersFPTAS` (robot.go:237-252): `ctx.Err()` is polled
once per item; the accumulator keeps each processed `(order, scaledValue)`
pair with its parent row, in processing order. -/
def fptasLoop (ctx : Bool) (maxSV : Nat) :
    List (Order × Nat) → (Nat → Nat) → List ((Order × Nat) × (Nat → Bool)) →
    Except PlanError ((Nat → Nat) × List ((Order × Nat) × (Nat → Bool)))
  | [], dp, acc => .ok (dp, acc)
  | (o, sv) :: rest, dp, acc =>
    if ctx then .error .canceled
    else
      fptasLoop ctx maxSV rest (fptasRow dp o sv maxSV)
        (acc ++ [((o, sv), fptasParentRow dp o sv maxSV)])

/-- The `bestValue` scan (robot.go:254-260): largest `v ≤ maxSV` with
`dp v ≤ capacity` (and `0` when none improves on the initial `0`). -/
def bestFeasibleScan (dp : Nat → Nat) (robotCapacity maxSV : Nat) : Nat :=
  (List.range (maxSV + 1)).foldl
    (fun best v => if dp v ≤ robotCapacity ∧ best < v then v else best) 0

/-- FPTAS backtracking (robot.go:266-272): walk items in descending index
order, taking item `i` whenever `parent[i][v] == 1`; stops when `v = 0`. -/
def fptasBack : List ((Order × Nat) × (Nat → Bool)) → Nat → List (Order × Nat)
  | [], _ => []
  | ((o, sv), par) :: rest, v =>
    if v = 0 then []
    else if par v then (o, sv) :: fptasBack rest (v - sv)
    else fptasBack rest v

/-- Scaling factor `K` (robot.go:195-207): the float64 expression
`int(float64(maxValue) * 0.1 / float64(n))` is the floor of
`maxValue / (10 n)`, raised to `1` when zero. -/
def fptasK (positiveOrders : List Order) : Nat :=
  let maxValue := (positiveOrders.map Order.value).foldl max 0
  let K0 := maxValue / (10 * positiveOrders.length)
  if K0 = 0 then 1 else K0

/-- The orders paired with their scaled values (robot.go:210-214). -/
def fptasScaled (positiveOrders : List Order) : List (Order × Nat) :=
  positiveOrders.map (fun o => (o, o.value / fptasK positiveOrders))

/-- `maxScaledValue` (robot.go:217-220). -/
def fptasMaxSV (positiveOrders : List Order) : Nat :=
  ((fptasScaled positiveOrders).map Prod.snd).sum

/-- The initial value-indexed table (robot.go:223-227): `capacity + 1` is the
infeasible sentinel, value `0` costs nothing. -/
def fptasDpInit (robotCapacity : Nat) : Nat → Nat :=
  fun v => if v = 0 then 0 else robotCapacity + 1

/-- `selectOrdersFPTAS` (robot.go:183-287).  `memPool` is received but never
used by the Go function. -/
def selectOrdersFPTAS (ctx : Bool) (positiveOrders zeroWeightOrders : List Order)
    (robotID : String) (robotCapacity baseValue : Nat) (_memPool : Option MemPool) :
    Except PlanError DeliveryPlan :=
  if positiveOrders = [] then
    .ok { robotID := robotID, totalWeight := 0, totalValue := baseValue,
          orders := zeroWeightOrders }
  else
    match fptasLoop ctx (fptasMaxSV positiveOrders) (fptasScaled positiveOrders)
        (fptasDpInit robotCapacity) [] with
    | .error e => .error e
    | .ok (dp, acc) =>
      let bestV := bestFeasibleScan dp robotCapacity (fptasMaxSV positiveOrders)
      let sel := (fptasBack acc.reverse bestV).map Prod.fst
      let selected := zeroWeightOrders ++ sel
      .ok { robotID := robotID, totalWeight := sumWeights selected,
            totalValue := baseValue + sumValues selected, orders := selected }

/-- One capacity-indexed 0/1-knapsack relaxation row of `selectOrdersCore`
(robot.go:330-335).  The in-place loop runs `w` from `robotCapacity` down to
`item.Weight` and only ever reads cells below the one it writes, so the row is
this pointwise function of the pre-item table. -/
def coreRow (dp : Nat → Nat) (o : Order) (robotCapacity : Nat) : Nat → Nat :=
  fun w => if o.weight ≤ w ∧ w ≤ robotCapacity ∧ dp w < dp (w - o.weight) + o.value then
             dp (w - o.weight) + o.value
           else dp w

/-- The `parent[i]` row recorded by the same relaxation (robot.go:333). -/
def coreParentRow (dp : Nat → Nat) (o : Order) (robotCapacity : Nat) : Nat → Bool :=
  fun w => decide (o.weight ≤ w ∧ w ≤ robotCapacity ∧ dp w < dp (w - o.weight) + o.value)

/-- Item loop of `selectOrdersCore` (robot.go:325-336), polling `ctx.Err()`
once per core item. -/
def coreLoop (ctx : Bool) (robotCapacity : Nat) :
    List Order → (Nat → Nat) → List (Order × (Nat → Bool)) →
    Except PlanError ((Nat → Nat) × List (Order × (Nat → Bool)))
  | [], dp, acc => .ok (dp, acc)
  | o :: rest, dp, acc =>
    if ctx then .error .canceled
    else
      coreLoop ctx robotCapacity rest (coreRow dp o robotCapacity)
        (acc ++ [(o, coreParentRow dp o robotCapacity)])

/-- The arg-max scans at robot.go:338-344 and robot.go:581-588: the smallest
index in `0 .. cap` attaining the maximal table entry. -/
def argmaxCap (dp : Nat → Nat) (cap : Nat) : Nat :=
  (List.range (cap + 1)).foldl (fun best w => if dp best < dp w then w else best) 0

/-- Core backtracking (robot.go:350-356): items in descending index order,
taking item `i` when `parent[i][w]`; stops when `w = 0`. -/
def coreBack : List (Order × (Nat → Bool)) → Nat → List Order
  | [], _ => []
  | (o, par) :: rest, w =>
    if w = 0 then []
    else if par w then o :: coreBack rest (w - o.weight)
    else coreBack rest w

/-- Greedy tail fill of `selectOrdersCore` (robot.go:364-369) over the
non-core items with the residual capacity. -/
def coreFill : List Order → Nat → List Order
  | [], _ => []
  | o :: rest, remainingCap =>
    if remainingCap = 0 then []
    else if o.weight ≤ remainingCap then o :: coreFill rest (remainingCap - o.weight)
    else coreFill rest remainingCap

/-- `selectOrdersCore` (robot.go:290-384).  The Go `remainingCap` starts at
`robotCapacity` and subtracts every already-selected weight; a (hypothetical)
negative value disables the fill loop exactly as `0` does, so `Nat`
subtraction is faithful.  `memPool` is received but never used. -/
def selectOrdersCore (ctx : Bool) (positiveOrders zeroWeightOrders : List Order)
    (robotID : String) (robotCapacity baseValue : Nat) (_memPool : Option MemPool) :
    Except PlanError DeliveryPlan :=
  if positiveOrders = [] then
    .ok { robotID := robotID, totalWeight := 0, totalValue := baseValue,
          orders := zeroWeightOrders }
  else
    let sorted := sortByRatio positiveOrders
    let cs := coreSize positiveOrders.length
    let coreItems := sorted.take cs
    match coreLoop ctx robotCapacity coreItems (fun _ => 0) [] with
    | .error e => .error e
    | .ok (dp, acc) =>
      let bestCap := argmaxCap dp robotCapacity
      let coreSel := coreBack acc.reverse bestCap
      let selected := zeroWeightOrders ++ coreSel
      let remainingCap := robotCapacity - sumWeights selected
      let selected2 := selected ++ coreFill (sorted.drop cs) remainingCap
      .ok { robotID := robotID, totalWeight := sumWeights selected2,
            totalValue := baseValue + sumValues selected2, orders := selected2 }

/-- State of the inline exact-DP solver in `selectOrdersForDeliveryOptimized`:
the `bestValue` table, the `bestPathIdx` table (`-1` as `none`) and the
`paths` arena (robot.go:494-515). -/
structure DPState where
  bestValue : Nat → Nat
  bestPathIdx : Nat → Option Nat
  paths : List PathNode

/-- One iteration of the exact-DP inner loop at one capacity cell
(robot.go:561-569): on improvement, write the cell and append an arena node
whose `prevIdx` is the chain head at `currentCap - w`. -/
def relaxStep (i w v : Nat) (st : DPState) (cap : Nat) : DPState :=
  let candidate := st.bestValue (cap - w) + v
  if st.bestValue cap < candidate then
    { bestValue := fun c => if c = cap then candidate else st.bestValue c
      bestPathIdx := fun c => if c = cap then some st.paths.length else st.bestPathIdx c
      paths := st.paths ++ [⟨i, st.bestPathIdx (cap - w)⟩] }
  else st

/-- The capacity cells visited by the inner loop for an item of weight `w`:
`effectiveCap, effectiveCap - 1, …, w` (empty when `effectiveCap < w`). -/
def capsDesc (effectiveCap w : Nat) : List Nat :=
  (List.range' w (effectiveCap + 1 - w)).reverse

/-- The inner loop of the exact DP for one item (robot.go:561-578). -/
def relaxItem (i w v effectiveCap : Nat) (st : DPState) : DPState :=
  (capsDesc effectiveCap w).foldl (relaxStep i w v) st

/-- Sum of the values looked at by the short-horizon pruning bound
(robot.go:548-551): the current item and at most the four after it. -/
def lookaheadValue (l : List (Nat × Order)) : Nat :=
  ((l.take 5).map (fun p => p.2.value)).sum

/-- Outer item loop of the exact DP (robot.go:534-579) over the ratio-sorted
positive orders paired with their indices, including the per-item `ctx.Err()`
poll, the overweight `continue`, and the two pruning branches (`break` on the
short-horizon bound, `continue` on low-value items). -/
def exactOuter (ctx : Bool) (effectiveCap : Nat) :
    List (Nat × Order) → DPState → Except PlanError DPState
  | [], st => .ok st
  | (i, o) :: rest, st =>
    if ctx then .error .canceled
    else if effectiveCap < o.weight then exactOuter ctx effectiveCap rest st
    else
      let currentBest := st.bestValue effectiveCap
      if 0 < currentBest then
        let remainingValue := lookaheadValue ((i, o) :: rest)
        if currentBest + remainingValue < currentBest * 11 / 10 then .ok st
        else if o.value < currentBest / 10 then exactOuter ctx effectiveCap rest st
        else exactOuter ctx effectiveCap rest (relaxItem i o.weight o.value effectiveCap st)
      else exactOuter ctx effectiveCap rest (relaxItem i o.weight o.value effectiveCap st)

/-- Path reconstruction loop (robot.go:591-594): follow `prevIdx` links
through the arena, collecting item indices.  The Go loop terminates because
every node's `prevIdx` is a strictly smaller arena index (proved below); the
fuel is always called with `paths.length + 1`, which that invariant makes
sufficient. -/
def walkChain (paths : List PathNode) : Nat → Option Nat → List Nat
  | 0, _ => []
  | _, none => []
  | fuel + 1, some idx =>
    match paths.get? idx with
    | none => []
    | some node => node.itemIndex :: walkChain paths fuel node.prevIdx

/-- The single-item fallback scan (robot.go:602-610): best positive order that
fits `effectiveCap`, by value, ties broken by smaller weight, earliest wins. -/
def fallbackScan (effectiveCap : Nat) : List Order → Option Order → Option Order
  | [], best => best
  | o :: rest, best =>
    if effectiveCap < o.weight then fallbackScan effectiveCap rest best
    else
      match best with
      | none => fallbackScan effectiveCap rest (some o)
      | some b =>
        if b.value < o.value ∨ (o.value = b.value ∧ o.weight < b.weight) then
          fallbackScan effectiveCap rest (some o)
        else fallbackScan effectiveCap rest (some b)

/-- `selectOrdersForDeliveryOptimized` (robot.go:386-631): partition, strategy
dispatch, and the inline exact-DP tier with pruning, arena backtracking and
the single-item fallback. -/
def selectOrdersForDeliveryOptimized (ctx : Bool) (orders : List Order)
    (robotID : String) (robotCapacity : Nat) (memPool : Option MemPool) :
    Except PlanError DeliveryPlan :=
  if robotCapacity = 0 ∨ orders = [] then
    .ok { robotID := robotID, totalWeight := 0, totalValue := 0, orders := [] }
  else
    let filtered := checkoutOrders memPool ++ orders.filter (fun o => o.weight ≤ robotCapacity)
    if filtered = [] then
      .ok { robotID := robotID, totalWeight := 0, totalValue := 0, orders := [] }
    else
      let zeroWeightOrders := checkoutOrders memPool ++ filtered.filter (fun o => o.weight = 0)
      let positiveOrders := checkoutOrders memPool ++ filtered.filter (fun o => 0 < o.weight)
      let totalWeight := sumWeights positiveOrders
      let selected := checkoutOrders memPool ++ zeroWeightOrders
      let totalValue := sumValues zeroWeightOrders
      if positiveOrders = [] then
        .ok { robotID := robotID, totalWeight := 0, totalValue := totalValue,
              orders := selected }
      else
        match chooseStrategy positiveOrders.length robotCapacity with
        | .greedy =>
          selectOrdersGreedy ctx positiveOrders zeroWeightOrders robotID robotCapacity totalValue
        | .core =>
          selectOrdersCore ctx positiveOrders zeroWeightOrders robotID robotCapacity totalValue
            memPool
        | .fptas =>
          selectOrdersFPTAS ctx positiveOrders zeroWeightOrders robotID robotCapacity totalValue
            memPool
        | .exact =>
          let effectiveCap := min robotCapacity totalWeight
          if effectiveCap = 0 then
            .ok { robotID := robotID, totalWeight := 0, totalValue := totalValue,
                  orders := selected }
          else
            let ps := sortByRatio positiveOrders
            let st0 : DPState :=
              { bestValue := fun _ => 0, bestPathIdx := fun _ => none,
                paths := checkoutPaths memPool }
            match exactOuter ctx effectiveCap ps.enum st0 with
            | .error e => .error e
            | .ok st =>
              let bestCap := argmaxCap st.bestValue effectiveCap
              let selectedIndices := walkChain st.paths (st.paths.length + 1) (st.bestPathIdx bestCap)
              let selected2 := selected ++ selectedIndices.reverse.map (fun j => ps.getD j default)
              let selected3 :=
                if selected2.length = zeroWeightOrders.length then
                  match fallbackScan effectiveCap ps none with
                  | some fb => selected2 ++ [fb]
                  | none => selected2
                else selected2
              .ok { robotID := robotID, totalWeight := sumWeights selected3,
                    totalValue := sumValues selected3, orders := selected3 }

/-- `selectOrdersForDelivery` (robot.go:178-180): the nil-pool entry point. -/
def selectOrdersForDelivery (ctx : Bool) (orders : List Order) (robotID : String)
    (robotCapacity : Nat) : Except PlanError DeliveryPlan :=
  selectOrdersForDeliveryOptimized ctx orders robotID robotCapacity none

/-! Helper lemmas. -/

theorem checkoutOrders_eq_nil (p : Option MemPool) : checkoutOrders p = [] := by
  cases p <;> rfl

theorem checkoutPaths_eq_nil (p : Option MemPool) : checkoutPaths p = [] := by
  cases p <;> rfl

/-- `selectOrdersCore` never reads its pool argument (robot.go:290-384). -/
theorem selectOrdersCore_pool (ctx : Bool) (po zw : List Order) (rid : String)
    (cap base : Nat) (p : Option MemPool) :
    selectOrdersCore ctx po zw rid cap base p = selectOrdersCore ctx po zw rid cap base none :=
  rfl

/-- `selectOrdersFPTAS` never reads its pool argument (robot.go:183-287). -/
theorem selectOrdersFPTAS_pool (ctx : Bool) (po zw : List Order) (rid : String)
    (cap base : Nat) (p : Option MemPool) :
    selectOrdersFPTAS ctx po zw rid cap base p = selectOrdersFPTAS ctx po zw rid cap base none :=
  rfl

/-! Claim theorems. -/

/-- Claim C6: the strategy selector chooses, on `n` positive-weight surviving
orders and capacity `C`, exactly the spec's table evaluated first-match-wins:
Greedy on `n ≤ 5 ∨ C ≤ 20`, else Core on `n ≤ 50 ∧ C ≤ 200`, else FPTAS on
`n > 100 ∨ C > 500`, else the exact DP. -/
theorem c6_strategy_selector (n capacity : Nat) :
    chooseStrategy n capacity = specStrategyTable n capacity := rfl

/-- Claim C7, counterexample: at `n = 12` positive orders the claim's core
size `n/3` clamped to `[5, 20]` would be `5`, but the code's
`coreSize` (robot.go:308-314) is `12`: when `n/3 < 5` it takes all `n` items
rather than clamping up to `5`. -/
theorem c7_counterexample :
    coreSize 12 = 12 ∧ ¬ coreSize 12 = max 5 (min (12 / 3) 20) := by
  decide

/-- Claim C7, amended: the core prefix size is `n/3` capped above at `20`,
except that when `n/3 < 5` (that is, `n ≤ 17`) the core is all `n` items;
in particular for `n ≤ 5` the core is all items. -/
theorem c7_core_size_amended (n : Nat) :
    coreSize n = if n / 3 < 5 then n else min (n / 3) 20 := by
  simp only [coreSize]
  rcases Nat.lt_or_ge 20 (n / 3) with h1 | h1
  · rw [if_pos h1, if_neg (by omega : ¬ (20 : Nat) < 5), if_neg (by omega : ¬ n / 3 < 5)]
    omega
  · rw [if_neg (by omega : ¬ 20 < n / 3)]
    by_cases h2 : n / 3 < 5
    · rw [if_pos h2, if_pos h2]
    · rw [if_neg h2, if_neg h2]
      omega

/-- Claim C9: running the optimizer with the memory pool present returns
exactly the same result (same error or same plan, robot id, totals and order
sequence) as running it with a nil pool and fresh allocation, and
`selectOrdersForDelivery` is exactly the nil-pool run: every pool checkout
truncates the pooled slice to length zero before use, so the pool is not
correctness-bearing. -/
theorem c9_pool_not_correctness_bearing (ctx : Bool) (orders : List Order)
    (robotID : String) (robotCapacity : Nat) (pool : MemPool) :
    selectOrdersForDeliveryOptimized ctx orders robotID robotCapacity (some pool) =
      selectOrdersForDeliveryOptimized ctx orders robotID robotCapacity none ∧
    selectOrdersForDelivery ctx orders robotID robotCapacity =
      selectOrdersForDeliveryOptimized ctx orders robotID robotCapacity none := by
  constructor
  · simp only [selectOrdersForDeliveryOptimized, checkoutOrders_eq_nil, checkoutPaths_eq_nil,
      selectOrdersCore_pool, selectOrdersFPTAS_pool]
  · rfl

/-- Claim C3, code evaluation at the failing input: with the execution context
already cancelled, the optimizer on the repository's own regression input
(five orders of weight 1 and value 1, capacity 3; routed to the greedy tier
because `n ≤ 5`) returns a fully-built plan instead of the cancellation
error, because `selectOrdersGreedy` (robot.go:141-176) never polls the
context. -/
theorem c3_cancelled_context_ignored_by_greedy :
    selectOrdersForDelivery true
        [⟨1, 1, 1⟩, ⟨2, 1, 1⟩, ⟨3, 1, 1⟩, ⟨4, 1, 1⟩, ⟨5, 1, 1⟩] "robot" 3 =
      .ok { robotID := "robot", totalWeight := 3, totalValue := 3,
            orders := [⟨1, 1, 1⟩, ⟨2, 1, 1⟩, ⟨3, 1, 1⟩] } := rfl

/-- Claim C1, code evaluation at the failing input: on an input holding a
zero-weight order of value 5 and six positive orders (capacity 30, routed to
the Core tier), the returned plan reports `totalValue = 160` while its order
list sums to `155`: `selectOrdersCore` (robot.go:371-376) adds `baseValue`
(the zero-weight orders' values) and then re-sums `selected`, which already
contains the zero-weight orders, counting their value twice.  The weight
equality still holds (zero-weight orders add nothing to the weight sum). -/
theorem c1_total_value_double_counts_zero_weight_values :
    selectOrdersForDelivery false
        [⟨0, 0, 5⟩, ⟨1, 10, 60⟩, ⟨2, 10, 50⟩, ⟨3, 10, 40⟩,
         ⟨4, 10, 30⟩, ⟨5, 10, 20⟩, ⟨6, 10, 10⟩] "robot" 30 =
      .ok { robotID := "robot", totalWeight := 30, totalValue := 160,
            orders := [⟨0, 0, 5⟩, ⟨3, 10, 40⟩, ⟨2, 10, 50⟩, ⟨1, 10, 60⟩] } ∧
    sumValues [⟨0, 0, 5⟩, ⟨3, 10, 40⟩, ⟨2, 10, 50⟩, ⟨1, 10, 60⟩] = 155 ∧
    sumWeights [⟨0, 0, 5⟩, ⟨3, 10, 40⟩, ⟨2, 10, 50⟩, ⟨1, 10, 60⟩] = 30 :=
  ⟨rfl, by decide, by decide⟩

/-- Claim C4, counterexample: with capacity `0` (a valid input per spec §6)
and a single zero-weight order of value 5, the optimizer short-circuits to
the empty plan (robot.go:387-389), so the zero-weight order does not appear
in the output, contradicting the claim's "for every input". -/
theorem c4_counterexample :
    selectOrdersForDelivery false [⟨1, 0, 5⟩] "robot" 0 =
      .ok { robotID := "robot", totalWeight := 0, totalValue := 0, orders := [] } := rfl

/-- Claim C8, counterexample: six all-zero-value orders of weight 1 with
capacity 21 are routed to the Core tier (`n = 6`, `C = 21`); the core DP never
improves on value `0`, the backtracking selects nothing, the greedy tail loop
starts past the core (which is all items since `n/3 < 5`), and the Core tier
has no single-item fallback, so the returned plan is empty although every
order individually fits. -/
theorem c8_counterexample :
    selectOrdersForDelivery false
        [⟨1, 1, 0⟩, ⟨2, 1, 0⟩, ⟨3, 1, 0⟩, ⟨4, 1, 0⟩, ⟨5, 1, 0⟩, ⟨6, 1, 0⟩] "robot" 21 =
      .ok { robotID := "robot", totalWeight := 0, totalValue := 0, orders := [] } := rfl

theorem sumWeights_nil : sumWeights [] = 0 := rfl

theorem sumValues_nil : sumValues [] = 0 := rfl

theorem sumWeights_cons (o : Order) (l : List Order) :
    sumWeights (o :: l) = o.weight + sumWeights l := by
  simp [sumWeights]

theorem sumValues_cons (o : Order) (l : List Order) :
    sumValues (o :: l) = o.value + sumValues l := by
  simp [sumValues]

theorem sumWeights_append (a b : List Order) :
    sumWeights (a ++ b) = sumWeights a + sumWeights b := by
  simp [sumWeights]

theorem sumValues_append (a b : List Order) :
    sumValues (a ++ b) = sumValues a + sumValues b := by
  simp [sumValues]

theorem sumWeights_eq_zero {l : List Order} (h : ∀ o ∈ l, o.weight = 0) :
    sumWeights l = 0 := by
  induction l with
  | nil => rfl
  | cons o rest ih =>
    rw [sumWeights_cons, h o (List.mem_cons_self _ _), ih fun x hx => h x (List.mem_cons_of_mem o hx)]

theorem weight_le_sumWeights {o : Order} {l : List Order} (h : o ∈ l) :
    o.weight ≤ sumWeights l := by
  induction l with
  | nil => cases h
  | cons a rest ih =>
    rw [sumWeights_cons]
    rcases List.mem_cons.mp h with rfl | h2
    · exact Nat.le_add_right _ _
    · exact (ih h2).trans (Nat.le_add_left _ _)

theorem sumWeights_sublist {a b : List Order} (h : a.Sublist b) :
    sumWeights a ≤ sumWeights b :=
  List.Sublist.sum_le_sum (h.map Order.weight) fun x _ => Nat.zero_le x

theorem sumValues_sublist {a b : List Order} (h : a.Sublist b) :
    sumValues a ≤ sumValues b :=
  List.Sublist.sum_le_sum (h.map Order.value) fun x _ => Nat.zero_le x

theorem sortByRatio_perm (l : List Order) : (sortByRatio l).Perm l :=
  List.perm_insertionSort ratioGe l

theorem mem_sortByRatio {o : Order} {l : List Order} : o ∈ sortByRatio l ↔ o ∈ l :=
  (sortByRatio_perm l).mem_iff

theorem sortByRatio_length (l : List Order) : (sortByRatio l).length = l.length :=
  (sortByRatio_perm l).length_eq

/-- Elements of a `foldl max` are bounded by it, and the seed is too. -/
theorem foldl_max_ge (l : List Nat) (a : Nat) :
    a ≤ l.foldl max a ∧ ∀ x ∈ l, x ≤ l.foldl max a := by
  induction l generalizing a with
  | nil => exact ⟨Nat.le_refl _, by simp⟩
  | cons b rest ih =>
    refine ⟨?_, ?_⟩
    · exact le_trans (Nat.le_max_left a b) (ih (max a b)).1
    · intro x hx
      rcases List.mem_cons.mp hx with rfl | hx2
      · exact le_trans (Nat.le_max_right a x) (ih (max a x)).1
      · exact (ih (max a b)).2 x hx2

/-- A `foldl max` is the seed or attained by a list element. -/
theorem foldl_max_attained (l : List Nat) (a : Nat) :
    l.foldl max a = a ∨ l.foldl max a ∈ l := by
  induction l generalizing a with
  | nil => exact .inl rfl
  | cons b rest ih =>
    rcases ih (max a b) with h | h
    · rw [List.foldl_cons, h]
      rcases max_choice a b with h2 | h2 <;> rw [h2]
      · exact .inl rfl
      · exact .inr (List.mem_cons_self _ _)
    · exact .inr (List.mem_cons_of_mem b h)

theorem argmaxCap_le (dp : Nat → Nat) (cap : Nat) : argmaxCap dp cap ≤ cap := by
  unfold argmaxCap
  have key : ∀ (l : List Nat) (b : Nat), b ≤ cap → (∀ w ∈ l, w ≤ cap) →
      l.foldl (fun best w => if dp best < dp w then w else best) b ≤ cap := by
    intro l
    induction l with
    | nil => intro b hb _; exact hb
    | cons w rest ih =>
      intro b hb hmem
      rw [List.foldl_cons]
      by_cases h : dp b < dp w
      · rw [if_pos h]
        exact ih w (hmem w (List.mem_cons_self _ _)) fun x hx => hmem x (List.mem_cons_of_mem w hx)
      · rw [if_neg h]
        exact ih b hb fun x hx => hmem x (List.mem_cons_of_mem w hx)
  exact key _ 0 (Nat.zero_le _) fun w hw => Nat.lt_succ_iff.mp (List.mem_range.mp hw)

/-- The arg-max scan dominates every table cell in range. -/
theorem argmaxCap_is_max (dp : Nat → Nat) (cap : Nat) :
    ∀ w ≤ cap, dp w ≤ dp (argmaxCap dp cap) := by
  have key : ∀ (l : List Nat) (b : Nat),
      dp b ≤ dp (l.foldl (fun best w => if dp best < dp w then w else best) b) ∧
      ∀ w ∈ l, dp w ≤ dp (l.foldl (fun best w => if dp best < dp w then w else best) b) := by
    intro l
    induction l with
    | nil => intro b; exact ⟨Nat.le_refl _, by simp⟩
    | cons w rest ih =>
      intro b
      rw [List.foldl_cons]
      by_cases h : dp b < dp w
      · rw [if_pos h]
        refine ⟨le_trans (Nat.le_of_lt h) (ih w).1, ?_⟩
        intro x hx
        rcases List.mem_cons.mp hx with rfl | hx2
        · exact (ih x).1
        · exact (ih w).2 x hx2
      · rw [if_neg h]
        refine ⟨(ih b).1, ?_⟩
        intro x hx
        rcases List.mem_cons.mp hx with rfl | hx2
        · exact le_trans (Nat.le_of_not_lt h) (ih b).1
        · exact (ih b).2 x hx2
  intro w hw
  exact (key (List.range (cap + 1)) 0).2 w (List.mem_range.mpr (Nat.lt_succ_of_le hw))

/-- On an everywhere-constant table the arg-max scan stays at `0`. -/
theorem argmaxCap_const (dp : Nat → Nat) (cap : Nat) (h : ∀ w, dp w = dp 0) :
    argmaxCap dp cap = 0 := by
  unfold argmaxCap
  have key : ∀ (l : List Nat) (b : Nat),
      l.foldl (fun best w => if dp best < dp w then w else best) b = b := by
    intro l
    induction l with
    | nil => intro b; rfl
    | cons w rest ih =>
      intro b
      rw [List.foldl_cons, if_neg (by rw [h w, h b]; exact Nat.lt_irrefl _), ih]
  exact key _ 0

theorem bestFeasibleScan_le (dp : Nat → Nat) (cap maxSV : Nat) :
    bestFeasibleScan dp cap maxSV ≤ maxSV := by
  unfold bestFeasibleScan
  have key : ∀ (l : List Nat) (b : Nat), b ≤ maxSV → (∀ v ∈ l, v ≤ maxSV) →
      l.foldl (fun best v => if dp v ≤ cap ∧ best < v then v else best) b ≤ maxSV := by
    intro l
    induction l with
    | nil => intro b hb _; exact hb
    | cons v rest ih =>
      intro b hb hmem
      rw [List.foldl_cons]
      by_cases h : dp v ≤ cap ∧ b < v
      · rw [if_pos h]
        exact ih v (hmem v (List.mem_cons_self _ _)) fun x hx => hmem x (List.mem_cons_of_mem v hx)
      · rw [if_neg h]
        exact ih b hb fun x hx => hmem x (List.mem_cons_of_mem v hx)
  exact key _ 0 (Nat.zero_le _) fun v hv => Nat.lt_succ_iff.mp (List.mem_range.mp hv)

theorem bestFeasibleScan_feasible (dp : Nat → Nat) (cap maxSV : Nat) :
    dp (bestFeasibleScan dp cap maxSV) ≤ cap ∨ bestFeasibleScan dp cap maxSV = 0 := by
  unfold bestFeasibleScan
  have key : ∀ (l : List Nat) (b : Nat), dp b ≤ cap ∨ b = 0 →
      dp (l.foldl (fun best v => if dp v ≤ cap ∧ best < v then v else best) b) ≤ cap ∨
        l.foldl (fun best v => if dp v ≤ cap ∧ best < v then v else best) b = 0 := by
    intro l
    induction l with
    | nil => intro b hb; exact hb
    | cons v rest ih =>
      intro b hb
      rw [List.foldl_cons]
      by_cases h : dp v ≤ cap ∧ b < v
      · rw [if_pos h]; exact ih v (.inl h.1)
      · rw [if_neg h]; exact ih b hb
  exact key _ 0 (.inr rfl)

theorem bestFeasibleScan_ge (dp : Nat → Nat) (cap maxSV : Nat) :
    ∀ v ≤ maxSV, dp v ≤ cap → v ≤ bestFeasibleScan dp cap maxSV := by
  unfold bestFeasibleScan
  have key : ∀ (l : List Nat) (b : Nat),
      b ≤ l.foldl (fun best v => if dp v ≤ cap ∧ best < v then v else best) b ∧
      ∀ v ∈ l, dp v ≤ cap → v ≤ l.foldl (fun best v => if dp v ≤ cap ∧ best < v then v else best) b := by
    intro l
    induction l with
    | nil => intro b; exact ⟨Nat.le_refl _, by simp⟩
    | cons v rest ih =>
      intro b
      rw [List.foldl_cons]
      by_cases h : dp v ≤ cap ∧ b < v
      · rw [if_pos h]
        refine ⟨le_trans (Nat.le_of_lt h.2) (ih v).1, ?_⟩
        intro x hx hdx
        rcases List.mem_cons.mp hx with rfl | hx2
        · exact (ih x).1
        · exact (ih v).2 x hx2 hdx
      · rw [if_neg h]
        refine ⟨(ih b).1, ?_⟩
        intro x hx hdx
        rcases List.mem_cons.mp hx with rfl | hx2
        · have hxb : x ≤ b := by
            rcases Nat.lt_or_ge b x with h2 | h2
            · exact absurd ⟨hdx, h2⟩ h
            · exact h2
          exact le_trans hxb (ih b).1
        · exact (ih b).2 x hx2 hdx
  intro v hv hdv
  exact (key (List.range (maxSV + 1)) 0).2 v (List.mem_range.mpr (Nat.lt_succ_of_le hv)) hdv

theorem pairwise_lt_pred {l : List Nat} (h : l.Pairwise (· < ·)) (h1 : ∀ j ∈ l, 1 ≤ j) :
    (l.map (fun j => j - 1)).Pairwise (· < ·) := by
  rw [List.pairwise_map]
  refine h.imp_of_mem ?_
  intro a b ha _ hab
  have := h1 a ha
  omega

/-- Mapping a strictly increasing in-range index list through `getD` yields a
sublist: the order-preserving selection of those positions. -/
theorem map_getD_sublist (d : Order) :
    ∀ (ps : List Order) (is : List Nat), is.Pairwise (· < ·) →
      (∀ i ∈ is, i < ps.length) → (is.map (fun i => ps.getD i d)).Sublist ps := by
  intro ps
  induction ps with
  | nil =>
    intro is hpw hbound
    cases is with
    | nil => exact List.Sublist.refl []
    | cons i rest => exact absurd (hbound i (List.mem_cons_self _ _)) (by simp)
  | cons p ps2 ih =>
    intro is hpw hbound
    cases is with
    | nil => exact List.nil_sublist _
    | cons i rest =>
      have hrest_pos : ∀ j ∈ rest, 1 ≤ j := by
        intro j hj
        have : i < j := (List.pairwise_cons.mp hpw).1 j hj
        omega
      have hshift : ∀ (l : List Nat), (∀ j ∈ l, 1 ≤ j) → (∀ j ∈ l, j < ps2.length + 1) →
          l.map (fun j => (p :: ps2).getD j d) = (l.map (fun j => j - 1)).map (fun j => ps2.getD j d) := by
        intro l h1 _
        rw [List.map_map]
        refine List.map_congr_left ?_
        intro j hj
        have h1j := h1 j hj
        obtain ⟨k, rfl⟩ : ∃ k, j = k + 1 := ⟨j - 1, by omega⟩
        simp
      rcases Nat.eq_zero_or_pos i with rfl | hi
      · have heq : rest.map (fun j => (p :: ps2).getD j d) =
            (rest.map (fun j => j - 1)).map (fun j => ps2.getD j d) :=
          hshift rest hrest_pos fun j hj => hbound j (List.mem_cons_of_mem _ hj)
        rw [List.map_cons, heq]
        have : (p :: ps2).getD 0 d = p := rfl
        rw [this]
        refine List.Sublist.cons₂ p (ih (rest.map (fun j => j - 1)) ?_ ?_)
        · exact pairwise_lt_pred (List.pairwise_cons.mp hpw).2 hrest_pos
        · intro j hj
          rcases List.mem_map.mp hj with ⟨k, hk, rfl⟩
          have h2 := hbound k (List.mem_cons_of_mem _ hk)
          have h3 := hrest_pos k hk
          rw [List.length_cons] at h2
          omega
      · have hall_pos : ∀ j ∈ i :: rest, 1 ≤ j := by
          intro j hj
          rcases List.mem_cons.mp hj with rfl | hj2
          · exact hi
          · exact hrest_pos j hj2
        have heq : (i :: rest).map (fun j => (p :: ps2).getD j d) =
            ((i :: rest).map (fun j => j - 1)).map (fun j => ps2.getD j d) :=
          hshift (i :: rest) hall_pos hbound
        rw [heq]
        refine List.Sublist.cons p (ih ((i :: rest).map (fun j => j - 1)) ?_ ?_)
        · exact pairwise_lt_pred hpw hall_pos
        · intro j hj
          rcases List.mem_map.mp hj with ⟨k, hk, rfl⟩
          have h2 := hbound k hk
          have h3 := hall_pos k hk
          rw [List.length_cons] at h2
          omega

/-- Everything the claims need about one `greedyFill` run: the taken list is a
sublist of the input, the returned weight and value are the seed plus the
taken sums, and the weight never exceeds the capacity. -/
theorem greedyFill_spec (cap : Nat) :
    ∀ (l : List Order) (cw tv : Nat),
      (greedyFill cap l cw tv).1.Sublist l ∧
      (greedyFill cap l cw tv).2.1 = cw + sumWeights (greedyFill cap l cw tv).1 ∧
      (greedyFill cap l cw tv).2.2 = tv + sumValues (greedyFill cap l cw tv).1 ∧
      (cw ≤ cap → (greedyFill cap l cw tv).2.1 ≤ cap) := by
  intro l
  induction l with
  | nil =>
    intro cw tv
    exact ⟨List.Sublist.refl _, by simp [greedyFill, sumWeights_nil],
      by simp [greedyFill, sumValues_nil], fun h => h⟩
  | cons o rest ih =>
    intro cw tv
    by_cases h : cw + o.weight ≤ cap
    · have hred : greedyFill cap (o :: rest) cw tv =
          (o :: (greedyFill cap rest (cw + o.weight) (tv + o.value)).1,
            (greedyFill cap rest (cw + o.weight) (tv + o.value)).2) := by
        rw [greedyFill, if_pos h]
      obtain ⟨ih1, ih2, ih3, ih4⟩ := ih (cw + o.weight) (tv + o.value)
      rw [hred]
      refine ⟨List.Sublist.cons₂ o ih1, ?_, ?_, fun _ => ih4 h⟩
      · rw [ih2, sumWeights_cons]; omega
      · rw [ih3, sumValues_cons]; omega
    · have hred : greedyFill cap (o :: rest) cw tv = greedyFill cap rest cw tv := by
        rw [greedyFill, if_neg h]
      obtain ⟨ih1, ih2, ih3, ih4⟩ := ih cw tv
      rw [hred]
      exact ⟨List.Sublist.cons o ih1, ih2, ih3, ih4⟩

/-- Starting from weight `0`, the greedy fill always takes the head of a
non-empty list of orders that individually fit. -/
theorem greedyFill_nonempty (cap tv : Nat) {l : List Order} (hne : l ≠ [])
    (hfit : ∀ o ∈ l, o.weight ≤ cap) : (greedyFill cap l 0 tv).1 ≠ [] := by
  cases l with
  | nil => exact absurd rfl hne
  | cons o rest =>
    have h : 0 + o.weight ≤ cap := by
      have := hfit o (List.mem_cons_self _ _)
      omega
    rw [greedyFill, if_pos h]
    exact List.cons_ne_nil _ _

/-- Shape of every `selectOrdersGreedy` result: always `ok`, orders are the
zero-weight orders followed by a taken sublist of the (ratio-sorted) positive
orders, totals accumulate from the base, weight stays within capacity, and
the selection is non-empty whenever some positive order fits. -/
theorem selectOrdersGreedy_spec (ctx : Bool) (po zw : List Order) (rid : String)
    (cap base : Nat) :
    ∃ taken,
      selectOrdersGreedy ctx po zw rid cap base =
        .ok { robotID := rid, totalWeight := sumWeights taken,
              totalValue := base + sumValues taken, orders := zw ++ taken } ∧
      List.Subperm taken (po.filter (fun o => 0 < o.weight)) ∧
      sumWeights taken ≤ cap ∧
      ((po.filter (fun o => 0 < o.weight) ≠ [] ∧ ∀ o ∈ po, o.weight ≤ cap) → taken ≠ []) := by
  refine ⟨(greedyFill cap (sortByRatio (po.filter (fun o => 0 < o.weight))) 0 base).1, ?_, ?_, ?_, ?_⟩
  · obtain ⟨_, h2, h3, _⟩ := greedyFill_spec cap (sortByRatio (po.filter (fun o => 0 < o.weight))) 0 base
    have e1 : (greedyFill cap (sortByRatio (po.filter (fun o => 0 < o.weight))) 0 base).2.1 =
        sumWeights (greedyFill cap (sortByRatio (po.filter (fun o => 0 < o.weight))) 0 base).1 := by
      omega
    simp only [selectOrdersGreedy]
    rw [e1, h3]
  · obtain ⟨h1, _, _, _⟩ := greedyFill_spec cap (sortByRatio (po.filter (fun o => 0 < o.weight))) 0 base
    exact h1.subperm.trans (sortByRatio_perm _).subperm
  · obtain ⟨_, h2, _, h4⟩ := greedyFill_spec cap (sortByRatio (po.filter (fun o => 0 < o.weight))) 0 base
    have := h4 (Nat.zero_le cap)
    omega
  · rintro ⟨hne, hfit⟩
    refine greedyFill_nonempty cap base ?_ ?_
    · intro hcontra
      apply hne
      have hlen := sortByRatio_length (po.filter (fun o => 0 < o.weight))
      rw [hcontra] at hlen
      exact List.eq_nil_of_length_eq_zero hlen.symm
    · intro o ho
      exact hfit o (List.mem_filter.mp (mem_sortByRatio.mp ho)).1

/-- What a recorded parent row guarantees about the cells it marks: the item
fits at that capacity and the capacity is within the table. -/
def ParOK (cap : Nat) (p : Order × (Nat → Bool)) : Prop :=
  ∀ c, p.2 c = true → p.1.weight ≤ c ∧ c ≤ cap

theorem coreParentRow_ok (dp : Nat → Nat) (o : Order) (cap : Nat) :
    ParOK cap (o, coreParentRow dp o cap) := by
  intro c hc
  have := of_decide_eq_true hc
  exact ⟨this.1, this.2.1⟩

/-- With a live (non-cancelled) context the core item loop always succeeds,
its accumulator lists exactly the processed items in order, and every
recorded parent row satisfies `ParOK`. -/
theorem coreLoop_ok (cap : Nat) :
    ∀ (items : List Order) (dp : Nat → Nat) (acc : List (Order × (Nat → Bool))),
      ∃ dp2 acc2, coreLoop false cap items dp acc = .ok (dp2, acc2) ∧
        acc2.map Prod.fst = acc.map Prod.fst ++ items ∧
        (∀ p ∈ acc2, p ∈ acc ∨ ParOK cap p) := by
  intro items
  induction items with
  | nil =>
    intro dp acc
    exact ⟨dp, acc, rfl, by simp, fun p hp => .inl hp⟩
  | cons o rest ih =>
    intro dp acc
    obtain ⟨dp2, acc2, h1, h2, h3⟩ := ih (coreRow dp o cap) (acc ++ [(o, coreParentRow dp o cap)])
    refine ⟨dp2, acc2, ?_, ?_, ?_⟩
    · rw [coreLoop, if_neg (by simp)]
      exact h1
    · rw [h2]
      simp
    · intro p hp
      rcases h3 p hp with h | h
      · rcases List.mem_append.mp h with h4 | h4
        · exact .inl h4
        · right
          have : p = (o, coreParentRow dp o cap) := by simpa using h4
          rw [this]
          exact coreParentRow_ok dp o cap
      · exact .inr h

/-- A cancelled context fails the core loop on any non-empty item list. -/
theorem coreLoop_cancelled (cap : Nat) (o : Order) (rest : List Order)
    (dp : Nat → Nat) (acc : List (Order × (Nat → Bool))) :
    coreLoop true cap (o :: rest) dp acc = .error .canceled := by
  rw [coreLoop, if_pos rfl]

theorem coreBack_sublist :
    ∀ (lst : List (Order × (Nat → Bool))) (w : Nat),
      (coreBack lst w).Sublist (lst.map Prod.fst) := by
  intro lst
  induction lst with
  | nil => intro w; exact List.nil_sublist _
  | cons p rest ih =>
    intro w
    rw [coreBack]
    by_cases h0 : w = 0
    · rw [if_pos h0]; exact List.nil_sublist _
    · rw [if_neg h0]
      by_cases hp : p.2 w
      · rw [if_pos hp]
        exact List.Sublist.cons₂ p.1 (ih (w - p.1.weight))
      · rw [if_neg hp]
        exact List.Sublist.cons p.1 (ih w)

theorem coreBack_weight {cap : Nat} :
    ∀ (lst : List (Order × (Nat → Bool))) (w : Nat), (∀ p ∈ lst, ParOK cap p) →
      sumWeights (coreBack lst w) ≤ w := by
  intro lst
  induction lst with
  | nil => intro w _; simp [coreBack, sumWeights_nil]
  | cons p rest ih =>
    intro w hok
    rw [coreBack]
    by_cases h0 : w = 0
    · rw [if_pos h0]; simp [sumWeights_nil]
    · rw [if_neg h0]
      by_cases hp : p.2 w
      · rw [if_pos hp]
        have hfit := (hok p (List.mem_cons_self _ _)) w hp
        have hrest := ih (w - p.1.weight) fun q hq => hok q (List.mem_cons_of_mem p hq)
        rw [sumWeights_cons]
        omega
      · rw [if_neg hp]
        exact ih w fun q hq => hok q (List.mem_cons_of_mem p hq)

theorem coreFill_sublist : ∀ (l : List Order) (r : Nat), (coreFill l r).Sublist l := by
  intro l
  induction l with
  | nil => intro r; exact List.nil_sublist _
  | cons o rest ih =>
    intro r
    rw [coreFill]
    by_cases h0 : r = 0
    · rw [if_pos h0]; exact List.nil_sublist _
    · rw [if_neg h0]
      by_cases hw : o.weight ≤ r
      · rw [if_pos hw]
        exact List.Sublist.cons₂ o (ih (r - o.weight))
      · rw [if_neg hw]
        exact List.Sublist.cons o (ih r)

theorem coreFill_weight : ∀ (l : List Order) (r : Nat), sumWeights (coreFill l r) ≤ r := by
  intro l
  induction l with
  | nil => intro r; simp [coreFill, sumWeights_nil]
  | cons o rest ih =>
    intro r
    rw [coreFill]
    by_cases h0 : r = 0
    · rw [if_pos h0]; simp [sumWeights_nil]
    · rw [if_neg h0]
      by_cases hw : o.weight ≤ r
      · rw [if_pos hw]
        have := ih (r - o.weight)
        rw [sumWeights_cons]
        omega
      · rw [if_neg hw]
        exact ih r

theorem subperm_append {α : Type} {a b c d : List α} (h1 : a.Subperm c) (h2 : b.Subperm d) :
    (a ++ b).Subperm (c ++ d) := by
  obtain ⟨l1, p1, s1⟩ := h1
  obtain ⟨l2, p2, s2⟩ := h2
  exact ⟨l1 ++ l2, p1.append p2, s1.append s2⟩

/-- Shape of every live-context `selectOrdersCore` run on a non-empty positive
list: always `ok`, orders are the zero-weight orders followed by the core
selection and the greedy tail fill, totals are `base` plus the re-summed
selection (the C1 double count), the taken positive orders form a
sub-multiset of the input positives, the core part respects the capacity and
the fill part the residual capacity. -/
theorem selectOrdersCore_spec (po zw : List Order) (rid : String) (cap base : Nat)
    (mp : Option MemPool) (hpo : po ≠ []) :
    ∃ coreSel fill,
      selectOrdersCore false po zw rid cap base mp =
        .ok { robotID := rid, totalWeight := sumWeights (zw ++ coreSel ++ fill),
              totalValue := base + sumValues (zw ++ coreSel ++ fill),
              orders := zw ++ coreSel ++ fill } ∧
      (coreSel ++ fill).Subperm po ∧
      sumWeights coreSel ≤ cap ∧
      sumWeights fill ≤ cap - sumWeights (zw ++ coreSel) := by
  obtain ⟨dp2, acc2, hloop, hacc, hpar⟩ :=
    coreLoop_ok cap (List.take (coreSize po.length) (sortByRatio po)) (fun _ => 0) []
  refine ⟨coreBack acc2.reverse (argmaxCap dp2 cap),
          coreFill (List.drop (coreSize po.length) (sortByRatio po))
            (cap - sumWeights (zw ++ coreBack acc2.reverse (argmaxCap dp2 cap))), ?_, ?_, ?_, ?_⟩
  · simp only [selectOrdersCore, if_neg hpo, hloop]
  · have hcore : (coreBack acc2.reverse (argmaxCap dp2 cap)).Subperm
        (List.take (coreSize po.length) (sortByRatio po)) := by
      have h1 := coreBack_sublist acc2.reverse (argmaxCap dp2 cap)
      rw [List.map_reverse, hacc, List.map_nil, List.nil_append] at h1
      exact h1.subperm.trans (List.reverse_perm _).subperm
    have hfill : (coreFill (List.drop (coreSize po.length) (sortByRatio po))
        (cap - sumWeights (zw ++ coreBack acc2.reverse (argmaxCap dp2 cap)))).Subperm
        (List.drop (coreSize po.length) (sortByRatio po)) :=
      (coreFill_sublist _ _).subperm
    have := subperm_append hcore hfill
    rw [List.take_append_drop] at this
    exact this.trans (sortByRatio_perm po).subperm
  · have hb := @coreBack_weight cap acc2.reverse (argmaxCap dp2 cap) ?_
    · exact hb.trans (argmaxCap_le dp2 cap)
    · intro p hp
      rcases hpar p (List.mem_reverse.mp hp) with h | h
      · cases h
      · exact h
  · exact coreFill_weight _ _

/-- A cancelled context fails `selectOrdersCore` on any non-empty positive
list: the first core item's poll returns the error (the core prefix is
non-empty because `coreSize` is positive for positive `n`). -/
theorem selectOrdersCore_cancelled (po zw : List Order) (rid : String) (cap base : Nat)
    (mp : Option MemPool) (hpo : po ≠ []) :
    selectOrdersCore true po zw rid cap base mp = .error .canceled := by
  have hlen : 0 < (sortByRatio po).length := by
    rw [sortByRatio_length]
    exact List.length_pos.mpr hpo
  have hcs : 0 < coreSize po.length := by
    have : 0 < po.length := List.length_pos.mpr hpo
    rw [c7_core_size_amended]
    split <;> omega
  obtain ⟨o, rest, htake⟩ : ∃ o rest, List.take (coreSize po.length) (sortByRatio po) = o :: rest := by
    cases h : List.take (coreSize po.length) (sortByRatio po) with
    | nil =>
      exfalso
      have hlen2 : (List.take (coreSize po.length) (sortByRatio po)).length = 0 := by
        rw [h]
        rfl
      rw [List.length_take] at hlen2
      omega
    | cons o rest => exact ⟨o, rest, rfl⟩
  simp only [selectOrdersCore, if_neg hpo, htake, coreLoop_cancelled]

def svSum (l : List (Order × Nat)) : Nat := (l.map Prod.snd).sum

def wSumP (l : List (Order × Nat)) : Nat := (l.map (fun p => p.1.weight)).sum

theorem svSum_nil : svSum [] = 0 := rfl

theorem svSum_cons (p : Order × Nat) (l : List (Order × Nat)) :
    svSum (p :: l) = p.2 + svSum l := by
  simp [svSum]

theorem svSum_append (a b : List (Order × Nat)) : svSum (a ++ b) = svSum a + svSum b := by
  simp [svSum]

theorem wSumP_nil : wSumP [] = 0 := rfl

theorem wSumP_cons (p : Order × Nat) (l : List (Order × Nat)) :
    wSumP (p :: l) = p.1.weight + wSumP l := by
  simp [wSumP]

theorem wSumP_append (a b : List (Order × Nat)) : wSumP (a ++ b) = wSumP a + wSumP b := by
  simp [wSumP]

theorem wSumP_eq_sumWeights (l : List (Order × Nat)) :
    wSumP l = sumWeights (l.map Prod.fst) := by
  unfold wSumP sumWeights
  rw [List.map_map]
  rfl

theorem fptasRow_le (dp : Nat → Nat) (o : Order) (sv maxSV v : Nat) :
    fptasRow dp o sv maxSV v ≤ dp v := by
  unfold fptasRow
  by_cases h : sv ≤ v ∧ v ≤ maxSV ∧ dp (v - sv) + o.weight < dp v
  · rw [if_pos h]
    omega
  · rw [if_neg h]

theorem fptasRow_zero (dp : Nat → Nat) (o : Order) (sv maxSV : Nat) :
    fptasRow dp o sv maxSV 0 = dp 0 := by
  unfold fptasRow
  rw [Nat.zero_sub]
  rw [if_neg]
  omega

/-- The final DP table of the FPTAS item loop, as a pure recursion. -/
def fptasDPPure (maxSV : Nat) : List (Order × Nat) → (Nat → Nat) → Nat → Nat
  | [], dp => dp
  | (o, sv) :: rest, dp => fptasDPPure maxSV rest (fptasRow dp o sv maxSV)

/-- The parent-row accumulator of the FPTAS item loop, as a pure recursion. -/
def fptasAccPure (maxSV : Nat) : List (Order × Nat) → (Nat → Nat) →
    List ((Order × Nat) × (Nat → Bool))
  | [], _ => []
  | (o, sv) :: rest, dp =>
    ((o, sv), fptasParentRow dp o sv maxSV) :: fptasAccPure maxSV rest (fptasRow dp o sv maxSV)

theorem fptasLoop_eq (maxSV : Nat) :
    ∀ (items : List (Order × Nat)) (dp : Nat → Nat) (acc : List ((Order × Nat) × (Nat → Bool))),
      fptasLoop false maxSV items dp acc =
        .ok (fptasDPPure maxSV items dp, acc ++ fptasAccPure maxSV items dp) := by
  intro items
  induction items with
  | nil => intro dp acc; simp [fptasLoop, fptasDPPure, fptasAccPure]
  | cons p rest ih =>
    intro dp acc
    obtain ⟨o, sv⟩ := p
    rw [fptasLoop, if_neg (by simp), ih, fptasDPPure, fptasAccPure]
    rw [List.append_assoc]
    rfl

theorem fptasLoop_cancelled (maxSV : Nat) (p : Order × Nat) (rest : List (Order × Nat))
    (dp : Nat → Nat) (acc : List ((Order × Nat) × (Nat → Bool))) :
    fptasLoop true maxSV (p :: rest) dp acc = .error .canceled := by
  obtain ⟨o, sv⟩ := p
  rw [fptasLoop, if_pos rfl]

theorem fptasDPPure_zero (maxSV : Nat) :
    ∀ (items : List (Order × Nat)) (dp : Nat → Nat),
      fptasDPPure maxSV items dp 0 = dp 0 := by
  intro items
  induction items with
  | nil => intro dp; rfl
  | cons p rest ih =>
    intro dp
    obtain ⟨o, sv⟩ := p
    rw [fptasDPPure, ih, fptasRow_zero]

theorem fptasAccPure_map_fst (maxSV : Nat) :
    ∀ (items : List (Order × Nat)) (dp : Nat → Nat),
      (fptasAccPure maxSV items dp).map Prod.fst = items := by
  intro items
  induction items with
  | nil => intro dp; rfl
  | cons p rest ih =>
    intro dp
    obtain ⟨o, sv⟩ := p
    rw [fptasAccPure, List.map_cons, ih]

/-- Residual scaled value after the backtracking walk. -/
def fptasResidual : List ((Order × Nat) × (Nat → Bool)) → Nat → Nat
  | [], v => v
  | ((_, sv), par) :: rest, v =>
    if v = 0 then 0
    else if par v then fptasResidual rest (v - sv)
    else fptasResidual rest v

theorem fptasBack_zero (lst : List ((Order × Nat) × (Nat → Bool))) : fptasBack lst 0 = [] := by
  cases lst with
  | nil => rfl
  | cons p rest =>
    obtain ⟨⟨o, sv⟩, par⟩ := p
    rw [fptasBack, if_pos rfl]

theorem fptasResidual_zero (lst : List ((Order × Nat) × (Nat → Bool))) :
    fptasResidual lst 0 = 0 := by
  cases lst with
  | nil => rfl
  | cons p rest =>
    obtain ⟨⟨o, sv⟩, par⟩ := p
    rw [fptasResidual, if_pos rfl]

theorem fptasBack_append :
    ∀ (A B : List ((Order × Nat) × (Nat → Bool))) (v : Nat),
      fptasBack (A ++ B) v = fptasBack A v ++ fptasBack B (fptasResidual A v) := by
  intro A
  induction A with
  | nil => intro B v; rfl
  | cons p rest ih =>
    intro B v
    obtain ⟨⟨o, sv⟩, par⟩ := p
    by_cases h0 : v = 0
    · subst h0
      simp [fptasBack_zero, fptasResidual_zero]
    · rw [List.cons_append, fptasBack, fptasBack, fptasResidual,
        if_neg h0, if_neg h0, if_neg h0]
      by_cases hp : par v
      · rw [if_pos hp, if_pos hp, if_pos hp, ih, List.cons_append]
      · rw [if_neg hp, if_neg hp, if_neg hp, ih]

theorem fptasResidual_append :
    ∀ (A B : List ((Order × Nat) × (Nat → Bool))) (v : Nat),
      fptasResidual (A ++ B) v = fptasResidual B (fptasResidual A v) := by
  intro A
  induction A with
  | nil => intro B v; rfl
  | cons p rest ih =>
    intro B v
    obtain ⟨⟨o, sv⟩, par⟩ := p
    by_cases h0 : v = 0
    · subst h0
      simp [fptasResidual_zero]
    · rw [List.cons_append, fptasResidual, fptasResidual, if_neg h0, if_neg h0]
      by_cases hp : par v
      · rw [if_pos hp, if_pos hp, ih]
      · rw [if_neg hp, if_neg hp, ih]

theorem fptasBack_sublist :
    ∀ (lst : List ((Order × Nat) × (Nat → Bool))) (v : Nat),
      (fptasBack lst v).Sublist (lst.map Prod.fst) := by
  intro lst
  induction lst with
  | nil => intro v; exact List.nil_sublist _
  | cons p rest ih =>
    intro v
    obtain ⟨⟨o, sv⟩, par⟩ := p
    rw [fptasBack]
    by_cases h0 : v = 0
    · rw [if_pos h0]; exact List.nil_sublist _
    · rw [if_neg h0]
      by_cases hp : par v
      · rw [if_pos hp]
        exact List.Sublist.cons₂ _ (ih (v - sv))
      · rw [if_neg hp]
        exact List.Sublist.cons _ (ih v)

/-- Backtracking exactness for the FPTAS value-indexed DP: walking the parent
rows in reverse processing order from value `v` yields a selection whose
scaled values account for `v` up to the residual, and whose weights account
exactly for the final table entry relative to the initial table at the
residual. -/
theorem fptas_back_invariant (maxSV : Nat) :
    ∀ (items : List (Order × Nat)) (dp0 : Nat → Nat) (v : Nat),
      svSum (fptasBack (fptasAccPure maxSV items dp0).reverse v) +
          fptasResidual (fptasAccPure maxSV items dp0).reverse v = v ∧
      wSumP (fptasBack (fptasAccPure maxSV items dp0).reverse v) +
          dp0 (fptasResidual (fptasAccPure maxSV items dp0).reverse v) =
        fptasDPPure maxSV items dp0 v := by
  intro items
  induction items with
  | nil =>
    intro dp0 v
    exact ⟨by simp [fptasAccPure, fptasBack, fptasResidual, svSum_nil],
           by simp [fptasAccPure, fptasBack, fptasResidual, wSumP_nil, fptasDPPure]⟩
  | cons p rest ih =>
    intro dp0 v
    obtain ⟨o, sv⟩ := p
    have hstruct : (fptasAccPure maxSV ((o, sv) :: rest) dp0).reverse =
        (fptasAccPure maxSV rest (fptasRow dp0 o sv maxSV)).reverse ++
          [((o, sv), fptasParentRow dp0 o sv maxSV)] := by
      rw [fptasAccPure, List.reverse_cons]
    obtain ⟨ih1, ih2⟩ := ih (fptasRow dp0 o sv maxSV) v
    rw [hstruct, fptasBack_append, fptasResidual_append, svSum_append, wSumP_append]
    set X := (fptasAccPure maxSV rest (fptasRow dp0 o sv maxSV)).reverse with hX
    set r1 := fptasResidual X v with hr1
    by_cases h0 : r1 = 0
    · rw [h0] at ih1 ih2 ⊢
      rw [fptasBack_zero, fptasResidual_zero]
      have hz : fptasRow dp0 o sv maxSV 0 = dp0 0 := fptasRow_zero dp0 o sv maxSV
      rw [hz] at ih2
      constructor
      · rw [svSum_nil]
        omega
      · rw [wSumP_nil, fptasDPPure]
        omega
    · by_cases hp : fptasParentRow dp0 o sv maxSV r1 = true
      · have hcond := of_decide_eq_true hp
        have hback : fptasBack [((o, sv), fptasParentRow dp0 o sv maxSV)] r1 = [(o, sv)] := by
          rw [fptasBack, if_neg h0, if_pos hp, fptasBack]
        have hres : fptasResidual [((o, sv), fptasParentRow dp0 o sv maxSV)] r1 = r1 - sv := by
          rw [fptasResidual, if_neg h0, if_pos hp, fptasResidual]
        have hrow : fptasRow dp0 o sv maxSV r1 = dp0 (r1 - sv) + o.weight := by
          unfold fptasRow
          exact if_pos hcond
        rw [hrow] at ih2
        rw [hback, hres]
        constructor
        · rw [svSum_cons, svSum_nil]
          have hsv : sv ≤ r1 := hcond.1
          dsimp only
          omega
        · rw [wSumP_cons, wSumP_nil, fptasDPPure]
          dsimp only
          omega
      · have hback : fptasBack [((o, sv), fptasParentRow dp0 o sv maxSV)] r1 = [] := by
          rw [fptasBack, if_neg h0, if_neg (by simpa using hp)]
          rfl
        have hres : fptasResidual [((o, sv), fptasParentRow dp0 o sv maxSV)] r1 = r1 := by
          rw [fptasResidual, if_neg h0, if_neg (by simpa using hp)]
          rfl
        have hrow : fptasRow dp0 o sv maxSV r1 = dp0 r1 := by
          unfold fptasRow
          refine if_neg ?_
          intro hcond
          exact absurd (decide_eq_true hcond) hp
        rw [hrow] at ih2
        rw [hback, hres]
        constructor
        · rw [svSum_nil]
          omega
        · rw [wSumP_nil, fptasDPPure]
          omega

/-- Completeness of the FPTAS value-indexed DP: every sub-selection of the
processed items bounds the final table at its scaled-value sum by its weight
sum (relative to the initial table). -/
theorem fptasDP_complete (maxSV : Nat) :
    ∀ {S items : List (Order × Nat)}, S.Sublist items →
      ∀ (dp0 : Nat → Nat) (v w0 : Nat), v + svSum S ≤ maxSV → dp0 v ≤ w0 →
        fptasDPPure maxSV items dp0 (v + svSum S) ≤ w0 + wSumP S := by
  intro S items hS
  induction hS with
  | slnil =>
    intro dp0 v w0 hmax hdp
    rw [svSum_nil, wSumP_nil, fptasDPPure, Nat.add_zero]
    omega
  | @cons S rest it hsub ih =>
    intro dp0 v w0 hmax hdp
    obtain ⟨o, sv⟩ := it
    rw [fptasDPPure]
    exact ih (fptasRow dp0 o sv maxSV) v w0 hmax
      (le_trans (fptasRow_le dp0 o sv maxSV v) hdp)
  | @cons₂ S rest it hsub ih =>
    intro dp0 v w0 hmax hdp
    obtain ⟨o, sv⟩ := it
    rw [fptasDPPure, svSum_cons, wSumP_cons]
    have hmax2 : (v + sv) + svSum S ≤ maxSV := by
      rw [svSum_cons] at hmax
      omega
    have hrowle : fptasRow dp0 o sv maxSV (v + sv) ≤ dp0 v + o.weight := by
      unfold fptasRow
      by_cases hcond : sv ≤ v + sv ∧ v + sv ≤ maxSV ∧ dp0 (v + sv - sv) + o.weight < dp0 (v + sv)
      · rw [if_pos hcond]
        have : v + sv - sv = v := by omega
        rw [this]
      · rw [if_neg hcond]
        have h1 : sv ≤ v + sv := by omega
        have h2 : v + sv ≤ maxSV := by omega
        have h3 : ¬ dp0 (v + sv - sv) + o.weight < dp0 (v + sv) := by
          intro hlt
          exact hcond ⟨h1, h2, hlt⟩
        have : v + sv - sv = v := by omega
        rw [this] at h3
        omega
    have := ih (fptasRow dp0 o sv maxSV) (v + sv) (w0 + o.weight) hmax2
      (le_trans hrowle (by omega))
    have harr : v + (sv + svSum S) = (v + sv) + svSum S := by omega
    rw [harr]
    dsimp only
    omega

theorem mul_svSum_le_sumValues (K : Nat) :
    ∀ l : List (Order × Nat), (∀ p ∈ l, K * p.2 ≤ p.1.value) →
      K * svSum l ≤ sumValues (l.map Prod.fst) := by
  intro l
  induction l with
  | nil => intro _; simp [svSum_nil, sumValues_nil]
  | cons p rest ih =>
    intro h
    rw [svSum_cons, List.map_cons, sumValues_cons, Nat.mul_add]
    have h1 := h p (List.mem_cons_self _ _)
    have h2 := ih fun q hq => h q (List.mem_cons_of_mem p hq)
    omega

/-- Scaling loses at most `K - 1` value per item. -/
theorem sumValues_le_scaled (K : Nat) (hK : 0 < K) :
    ∀ S : List Order,
      10 * sumValues S ≤
        10 * (K * svSum (S.map (fun o => (o, o.value / K)))) + S.length * (10 * (K - 1)) := by
  intro S
  induction S with
  | nil => simp [sumValues_nil, svSum_nil]
  | cons o rest ih =>
    rw [sumValues_cons, List.map_cons, svSum_cons, List.length_cons]
    dsimp only
    rw [Nat.mul_add K (o.value / K)]
    have hg : (rest.length + 1) * (10 * (K - 1)) =
        rest.length * (10 * (K - 1)) + 10 * (K - 1) := by
      ring
    rw [hg]
    have hdm : K * (o.value / K) + o.value % K = o.value := Nat.div_add_mod o.value K
    have hmod : o.value % K < K := Nat.mod_lt _ hK
    omega

theorem foldl_max_pos_mem (l : List Nat) (h : 0 < l.foldl max 0) : l.foldl max 0 ∈ l := by
  rcases foldl_max_attained l 0 with h2 | h2
  · omega
  · exact h2

theorem fptasK_pos (po : List Order) : 0 < fptasK po := by
  simp only [fptasK]
  by_cases h : (po.map Order.value).foldl max 0 / (10 * po.length) = 0
  · rw [if_pos h]
    exact Nat.one_pos
  · rw [if_neg h]
    exact Nat.pos_of_ne_zero h

theorem fptasScaled_map_fst (po : List Order) : (fptasScaled po).map Prod.fst = po := by
  unfold fptasScaled
  rw [List.map_map]
  have h : ∀ o ∈ po, (Prod.fst ∘ fun o => (o, o.value / fptasK po)) o = id o := fun o _ => rfl
  rw [List.map_congr_left h, List.map_id]

theorem fptasScaled_mem {p : Order × Nat} {po : List Order} (h : p ∈ fptasScaled po) :
    p.1 ∈ po ∧ p.2 = p.1.value / fptasK po := by
  rcases List.mem_map.mp h with ⟨o, ho, rfl⟩
  exact ⟨ho, rfl⟩

theorem svSum_sublist {a b : List (Order × Nat)} (h : a.Sublist b) : svSum a ≤ svSum b :=
  List.Sublist.sum_le_sum (h.map Prod.snd) fun x _ => Nat.zero_le x

theorem wSumP_map_pair (f : Order → Nat) (S : List Order) :
    wSumP (S.map (fun o => (o, f o))) = sumWeights S := by
  unfold wSumP sumWeights
  rw [List.map_map]
  rfl

theorem svSum_map_pair (f : Order → Nat) (S : List Order) :
    svSum (S.map (fun o => (o, f o))) = (S.map f).sum := by
  unfold svSum
  rw [List.map_map]
  rfl

/-- Everything the claims need from one live-context `selectOrdersFPTAS` run
on a non-empty positive list: the result shape, the selection being a
sub-multiset of the positives, the capacity bound on its weight, and the
`(1 - ε)`-style bound: ten times any feasible value is at most ten times the
selected value plus the maximum single value. -/
theorem selectOrdersFPTAS_spec (po zw : List Order) (rid : String) (cap base : Nat)
    (mp : Option MemPool) (hpo : po ≠ []) :
    ∃ selP : List (Order × Nat),
      selectOrdersFPTAS false po zw rid cap base mp =
        .ok { robotID := rid, totalWeight := sumWeights (zw ++ selP.map Prod.fst),
              totalValue := base + sumValues (zw ++ selP.map Prod.fst),
              orders := zw ++ selP.map Prod.fst } ∧
      (selP.map Prod.fst).Subperm po ∧
      sumWeights (selP.map Prod.fst) ≤ cap ∧
      ∀ S : List Order, S.Sublist po → sumWeights S ≤ cap →
        10 * sumValues S ≤ 10 * sumValues (selP.map Prod.fst) +
          (po.map Order.value).foldl max 0 := by
  have heq := fptasLoop_eq (fptasMaxSV po) (fptasScaled po) (fptasDpInit cap) []
  refine ⟨fptasBack (fptasAccPure (fptasMaxSV po) (fptasScaled po) (fptasDpInit cap)).reverse
      (bestFeasibleScan (fptasDPPure (fptasMaxSV po) (fptasScaled po) (fptasDpInit cap)) cap
        (fptasMaxSV po)), ?_, ?_, ?_, ?_⟩
  · simp only [selectOrdersFPTAS, if_neg hpo, heq, List.nil_append]
  · have hsub := fptasBack_sublist
      (fptasAccPure (fptasMaxSV po) (fptasScaled po) (fptasDpInit cap)).reverse
      (bestFeasibleScan (fptasDPPure (fptasMaxSV po) (fptasScaled po) (fptasDpInit cap)) cap
        (fptasMaxSV po))
    rw [List.map_reverse, fptasAccPure_map_fst] at hsub
    have hsub2 := hsub.map Prod.fst
    rw [List.map_reverse, fptasScaled_map_fst] at hsub2
    exact hsub2.subperm.trans (List.reverse_perm po).subperm
  · obtain ⟨ih1, ih2⟩ := fptas_back_invariant (fptasMaxSV po) (fptasScaled po) (fptasDpInit cap)
      (bestFeasibleScan (fptasDPPure (fptasMaxSV po) (fptasScaled po) (fptasDpInit cap)) cap
        (fptasMaxSV po))
    have hfeas : fptasDPPure (fptasMaxSV po) (fptasScaled po) (fptasDpInit cap)
        (bestFeasibleScan (fptasDPPure (fptasMaxSV po) (fptasScaled po) (fptasDpInit cap)) cap
          (fptasMaxSV po)) ≤ cap := by
      rcases bestFeasibleScan_feasible
          (fptasDPPure (fptasMaxSV po) (fptasScaled po) (fptasDpInit cap)) cap
          (fptasMaxSV po) with h | h
      · exact h
      · rw [h, fptasDPPure_zero]
        unfold fptasDpInit
        simp
    have hdpinit : ∀ r : Nat, r ≠ 0 → fptasDpInit cap r = cap + 1 := by
      intro r hr
      simp only [fptasDpInit]
      rw [if_neg hr]
    by_cases hr : fptasResidual
        (fptasAccPure (fptasMaxSV po) (fptasScaled po) (fptasDpInit cap)).reverse
        (bestFeasibleScan (fptasDPPure (fptasMaxSV po) (fptasScaled po) (fptasDpInit cap)) cap
          (fptasMaxSV po)) = 0
    · rw [hr] at ih2
      have hz : fptasDpInit cap 0 = 0 := rfl
      rw [hz] at ih2
      rw [← wSumP_eq_sumWeights]
      omega
    · exfalso
      have := hdpinit _ hr
      omega
  · intro S hS hwS
    obtain ⟨ih1, ih2⟩ := fptas_back_invariant (fptasMaxSV po) (fptasScaled po) (fptasDpInit cap)
      (bestFeasibleScan (fptasDPPure (fptasMaxSV po) (fptasScaled po) (fptasDpInit cap)) cap
        (fptasMaxSV po))
    have hfeas : fptasDPPure (fptasMaxSV po) (fptasScaled po) (fptasDpInit cap)
        (bestFeasibleScan (fptasDPPure (fptasMaxSV po) (fptasScaled po) (fptasDpInit cap)) cap
          (fptasMaxSV po)) ≤ cap := by
      rcases bestFeasibleScan_feasible
          (fptasDPPure (fptasMaxSV po) (fptasScaled po) (fptasDpInit cap)) cap
          (fptasMaxSV po) with h | h
      · exact h
      · rw [h, fptasDPPure_zero]
        unfold fptasDpInit
        simp
    have hr : fptasResidual
        (fptasAccPure (fptasMaxSV po) (fptasScaled po) (fptasDpInit cap)).reverse
        (bestFeasibleScan (fptasDPPure (fptasMaxSV po) (fptasScaled po) (fptasDpInit cap)) cap
          (fptasMaxSV po)) = 0 := by
      by_cases hr : fptasResidual
          (fptasAccPure (fptasMaxSV po) (fptasScaled po) (fptasDpInit cap)).reverse
          (bestFeasibleScan (fptasDPPure (fptasMaxSV po) (fptasScaled po) (fptasDpInit cap)) cap
            (fptasMaxSV po)) = 0
      · exact hr
      · exfalso
        have h2 : fptasDpInit cap (fptasResidual
            (fptasAccPure (fptasMaxSV po) (fptasScaled po) (fptasDpInit cap)).reverse
            (bestFeasibleScan (fptasDPPure (fptasMaxSV po) (fptasScaled po) (fptasDpInit cap))
              cap (fptasMaxSV po))) = cap + 1 := by
          simp only [fptasDpInit]
          rw [if_neg hr]
        rw [h2] at ih2
        omega
    rw [hr] at ih1 ih2
    have hz : fptasDpInit cap 0 = 0 := rfl
    rw [hz] at ih2
    rw [Nat.add_zero] at ih1 ih2
    -- scaled image of the competitor selection
    have hSP : (S.map (fun o => (o, o.value / fptasK po))).Sublist (fptasScaled po) := by
      unfold fptasScaled
      exact hS.map _
    have hsvSP : svSum (S.map (fun o => (o, o.value / fptasK po))) ≤ fptasMaxSV po := by
      unfold fptasMaxSV
      exact svSum_sublist hSP
    have hcomp := fptasDP_complete (fptasMaxSV po) hSP (fptasDpInit cap) 0 0
      (by simpa using hsvSP) (Nat.le_refl 0)
    rw [Nat.zero_add, Nat.zero_add, wSumP_map_pair] at hcomp
    have hbest := bestFeasibleScan_ge
      (fptasDPPure (fptasMaxSV po) (fptasScaled po) (fptasDpInit cap)) cap (fptasMaxSV po)
      (svSum (S.map (fun o => (o, o.value / fptasK po)))) hsvSP
      (le_trans hcomp hwS)
    have helem : ∀ p ∈ fptasBack
        (fptasAccPure (fptasMaxSV po) (fptasScaled po) (fptasDpInit cap)).reverse
        (bestFeasibleScan (fptasDPPure (fptasMaxSV po) (fptasScaled po) (fptasDpInit cap)) cap
          (fptasMaxSV po)), fptasK po * p.2 ≤ p.1.value := by
      intro p hp
      have hsub := fptasBack_sublist
        (fptasAccPure (fptasMaxSV po) (fptasScaled po) (fptasDpInit cap)).reverse
        (bestFeasibleScan (fptasDPPure (fptasMaxSV po) (fptasScaled po) (fptasDpInit cap)) cap
          (fptasMaxSV po))
      rw [List.map_reverse, fptasAccPure_map_fst] at hsub
      have hmem : p ∈ fptasScaled po := List.mem_reverse.mp (hsub.subset hp)
      obtain ⟨-, h2⟩ := fptasScaled_mem hmem
      rw [h2, Nat.mul_comm]
      exact Nat.div_mul_le_self _ _
    have h1 := mul_svSum_le_sumValues (fptasK po) _ helem
    have h2 := sumValues_le_scaled (fptasK po) (fptasK_pos po) S
    have h3 : S.length * (10 * (fptasK po - 1)) ≤ po.length * (10 * (fptasK po - 1)) :=
      Nat.mul_le_mul_right _ hS.length_le
    have h4 : po.length * (10 * (fptasK po - 1)) ≤ (po.map Order.value).foldl max 0 := by
      unfold fptasK
      by_cases hK0 : (po.map Order.value).foldl max 0 / (10 * po.length) = 0
      · simp [hK0]
      · rw [if_neg hK0]
        have hd := Nat.div_mul_le_self ((po.map Order.value).foldl max 0) (10 * po.length)
        have he : po.length *
            (10 * ((po.map Order.value).foldl max 0 / (10 * po.length) - 1)) ≤
            (po.map Order.value).foldl max 0 / (10 * po.length) * (10 * po.length) := by
          have hle : (po.map Order.value).foldl max 0 / (10 * po.length) - 1 ≤
              (po.map Order.value).foldl max 0 / (10 * po.length) := Nat.sub_le _ _
          calc po.length * (10 * ((po.map Order.value).foldl max 0 / (10 * po.length) - 1)) =
              ((po.map Order.value).foldl max 0 / (10 * po.length) - 1) * (10 * po.length) := by
                ring
            _ ≤ (po.map Order.value).foldl max 0 / (10 * po.length) * (10 * po.length) :=
                Nat.mul_le_mul_right _ hle
        omega
    have h5 : fptasK po * svSum (S.map (fun o => (o, o.value / fptasK po))) ≤
        fptasK po * svSum (fptasBack
          (fptasAccPure (fptasMaxSV po) (fptasScaled po) (fptasDpInit cap)).reverse
          (bestFeasibleScan (fptasDPPure (fptasMaxSV po) (fptasScaled po) (fptasDpInit cap)) cap
            (fptasMaxSV po))) := by
      rw [ih1]
      exact Nat.mul_le_mul_left _ hbest
    omega

/-- A reconstruction chain in the arena: the list of item indices read off by
following `prevIdx` links from a chain head. -/
inductive Chain (paths : List PathNode) : Option Nat → List Nat → Prop where
  | nil : Chain paths none []
  | cons {idx : Nat} {node : PathNode} {is : List Nat} :
      paths.get? idx = some node → Chain paths node.prevIdx is →
      Chain paths (some idx) (node.itemIndex :: is)

/-- Every arena node links only to strictly earlier arena positions — the
invariant that makes the Go backtracking loop terminate. -/
def ArenaWF (paths : List PathNode) : Prop :=
  ∀ idx node, paths.get? idx = some node → ∀ j, node.prevIdx = some j → j < idx

/-- What one `bestPathIdx` cell guarantees: its chain decodes to strictly
decreasing item indices below `k` and within the item list, whose orders
weigh at most the cell's capacity. -/
def CellOK (ps : List Order) (paths : List PathNode) (k : Nat) (cell : Option Nat) (c : Nat) :
    Prop :=
  ∃ is, Chain paths cell is ∧ is.Pairwise (fun a b => b < a) ∧
    (∀ j ∈ is, j < k ∧ j < ps.length) ∧
    sumWeights (is.map (fun j => ps.getD j default)) ≤ c

/-- The exact-DP state invariant after processing the first `k` items. -/
def DPInv (ps : List Order) (effCap k : Nat) (st : DPState) : Prop :=
  ArenaWF st.paths ∧ ∀ c, c ≤ effCap → CellOK ps st.paths k (st.bestPathIdx c) c

/-- The invariant in the middle of one item's inner loop: cells at or below
`c0` are untouched this item, cells above it already satisfy the post-item
invariant, and the arena has only grown. -/
def MidItemInv (ps : List Order) (effCap i c0 : Nat) (st0 st : DPState) : Prop :=
  st0.paths.IsPrefix st.paths ∧ ArenaWF st.paths ∧
  (∀ c, c ≤ c0 → st.bestValue c = st0.bestValue c ∧ st.bestPathIdx c = st0.bestPathIdx c) ∧
  (∀ c, c ≤ effCap → c0 < c → CellOK ps st.paths (i + 1) (st.bestPathIdx c) c)

theorem get?_some_lt {α : Type} {l : List α} {n : Nat} {a : α} (h : l.get? n = some a) :
    n < l.length := by
  by_contra hn
  rw [List.get?_eq_none.mpr (Nat.le_of_not_lt hn)] at h
  cases h

theorem chain_append_arena {paths extra : List PathNode} {o : Option Nat} {is : List Nat}
    (h : Chain paths o is) : Chain (paths ++ extra) o is := by
  induction h with
  | nil => exact Chain.nil
  | cons hget _ ih =>
    exact Chain.cons (by rw [List.get?_append (get?_some_lt hget)]; exact hget) ih

theorem chain_head_lt {paths : List PathNode} {idx : Nat} {is : List Nat}
    (h : Chain paths (some idx) is) : idx < paths.length := by
  cases h with
  | cons hget _ => exact get?_some_lt hget

theorem cellOK_append_arena {ps : List Order} {paths : List PathNode} {k : Nat} {cell : Option Nat}
    {c : Nat} (h : CellOK ps paths k cell c) (extra : List PathNode) :
    CellOK ps (paths ++ extra) k cell c := by
  obtain ⟨is, h1, h2, h3, h4⟩ := h
  exact ⟨is, chain_append_arena h1, h2, h3, h4⟩

theorem cellOK_mono {ps : List Order} {paths : List PathNode} {k k2 : Nat} {cell : Option Nat}
    {c : Nat} (h : CellOK ps paths k cell c) (hk : k ≤ k2) : CellOK ps paths k2 cell c := by
  obtain ⟨is, h1, h2, h3, h4⟩ := h
  exact ⟨is, h1, h2, fun j hj => ⟨Nat.lt_of_lt_of_le (h3 j hj).1 hk, (h3 j hj).2⟩, h4⟩

theorem walkChain_none (paths : List PathNode) : ∀ fuel, walkChain paths fuel none = [] := by
  intro fuel
  cases fuel <;> rfl

theorem walkChain_eq {paths : List PathNode} (hwf : ArenaWF paths) :
    ∀ {o : Option Nat} {is : List Nat}, Chain paths o is →
      ∀ fuel, (∀ j, o = some j → j < fuel) → walkChain paths fuel o = is := by
  intro o is h
  induction h with
  | nil => intro fuel _; exact walkChain_none paths fuel
  | @cons idx node is hget hchain ih =>
    intro fuel hfuel
    have hidx : idx < fuel := hfuel idx rfl
    obtain ⟨f, rfl⟩ : ∃ f, fuel = f + 1 := ⟨fuel - 1, by omega⟩
    rw [walkChain, hget]
    show node.itemIndex :: walkChain paths f node.prevIdx = node.itemIndex :: is
    congr 1
    refine ih f ?_
    intro j hj
    have := hwf idx node hget j hj
    omega

theorem relaxStep_mid (ps : List Order) (effCap i : Nat) (o : Order) (st0 st : DPState)
    (hi : i < ps.length) (hgetD : ps.getD i default = o) (hwpos : 0 < o.weight)
    (c0 : Nat) (hwc0 : o.weight ≤ c0) (hc0 : c0 ≤ effCap)
    (hst0 : DPInv ps effCap i st0)
    (hmid : MidItemInv ps effCap i c0 st0 st) :
    MidItemInv ps effCap i (c0 - 1) st0 (relaxStep i o.weight o.value st c0) := by
  obtain ⟨hpre, hwf, huntouched, hdone⟩ := hmid
  obtain ⟨hwf0, hcells0⟩ := hst0
  by_cases hcond : st.bestValue c0 < st.bestValue (c0 - o.weight) + o.value
  · -- improvement: write the cell and append an arena node
    have heq : relaxStep i o.weight o.value st c0 =
        { bestValue := fun c => if c = c0 then st.bestValue (c0 - o.weight) + o.value
                                else st.bestValue c,
          bestPathIdx := fun c => if c = c0 then some st.paths.length else st.bestPathIdx c,
          paths := st.paths ++ [⟨i, st.bestPathIdx (c0 - o.weight)⟩] } := by
      unfold relaxStep
      rw [if_pos hcond]
    rw [heq]
    have hlow := huntouched (c0 - o.weight) (by omega)
    have hlowcell : CellOK ps st0.paths i (st0.bestPathIdx (c0 - o.weight)) (c0 - o.weight) :=
      hcells0 _ (by omega)
    obtain ⟨is0, hch0, hpw0, hb0, hwt0⟩ := hlowcell
    obtain ⟨t, ht⟩ := hpre
    have hch0st : Chain st.paths (st0.bestPathIdx (c0 - o.weight)) is0 := by
      rw [← ht]
      exact chain_append_arena hch0
    have hlen0 : st0.paths.length ≤ st.paths.length := by
      rw [← ht, List.length_append]
      omega
    refine ⟨?_, ?_, ?_, ?_⟩
    · exact ⟨t ++ [⟨i, st.bestPathIdx (c0 - o.weight)⟩], by rw [← List.append_assoc, ht]⟩
    · intro idx node hget j hj
      rcases Nat.lt_or_ge idx st.paths.length with hlt | hge
      · rw [List.get?_append hlt] at hget
        exact hwf idx node hget j hj
      · have hidx : idx = st.paths.length := by
          have h2 := get?_some_lt hget
          rw [List.length_append] at h2
          simp at h2
          omega
        subst hidx
        rw [List.get?_concat_length] at hget
        injection hget with hget
        subst hget
        have hj2 : st.bestPathIdx (c0 - o.weight) = some j := hj
        rw [hlow.2] at hj2
        have hchj : Chain st0.paths (some j) is0 := hj2 ▸ hch0
        have := chain_head_lt hchj
        omega
    · intro c hc
      have hne : c ≠ c0 := by omega
      refine ⟨?_, ?_⟩
      · show (if c = c0 then st.bestValue (c0 - o.weight) + o.value else st.bestValue c) =
            st0.bestValue c
        rw [if_neg hne]
        exact (huntouched c (by omega)).1
      · show (if c = c0 then some st.paths.length else st.bestPathIdx c) = st0.bestPathIdx c
        rw [if_neg hne]
        exact (huntouched c (by omega)).2
    · intro c hce hc
      by_cases hceq : c = c0
      · refine ⟨i :: is0, ?_, ?_, ?_, ?_⟩
        · show Chain (st.paths ++ [⟨i, st.bestPathIdx (c0 - o.weight)⟩])
            (if c = c0 then some st.paths.length else st.bestPathIdx c) (i :: is0)
          rw [if_pos hceq]
          have hnode : (st.paths ++ ([⟨i, st.bestPathIdx (c0 - o.weight)⟩] : List PathNode)).get?
              st.paths.length = some (⟨i, st.bestPathIdx (c0 - o.weight)⟩ : PathNode) :=
            List.get?_concat_length st.paths _
          refine Chain.cons hnode ?_
          show Chain (st.paths ++ [⟨i, st.bestPathIdx (c0 - o.weight)⟩])
            (st.bestPathIdx (c0 - o.weight)) is0
          rw [hlow.2]
          exact chain_append_arena hch0st
        · exact List.pairwise_cons.mpr ⟨fun j hj => (hb0 j hj).1, hpw0⟩
        · intro j hj
          rcases List.mem_cons.mp hj with h1 | hj2
          · exact ⟨by omega, by rw [h1]; exact hi⟩
          · exact ⟨Nat.lt_succ_of_lt (hb0 j hj2).1, (hb0 j hj2).2⟩
        · rw [List.map_cons, sumWeights_cons, hgetD]
          omega
      · show CellOK ps (st.paths ++ [⟨i, st.bestPathIdx (c0 - o.weight)⟩]) (i + 1)
          (if c = c0 then some st.paths.length else st.bestPathIdx c) c
        rw [if_neg hceq]
        exact cellOK_append_arena (hdone c hce (by omega)) _
  · have heq : relaxStep i o.weight o.value st c0 = st := by
      unfold relaxStep
      rw [if_neg hcond]
    rw [heq]
    refine ⟨hpre, hwf, ?_, ?_⟩
    · intro c hc
      exact huntouched c (by omega)
    · intro c hce hc
      rcases Nat.lt_or_ge c0 c with h | h
      · exact hdone c hce h
      · have hc0eq : c = c0 := by omega
        subst hc0eq
        have hu := huntouched c (Nat.le_refl c)
        rw [hu.2]
        obtain ⟨t, ht⟩ := hpre
        have hcell := cellOK_mono (hcells0 c hce) (Nat.le_succ i)
        rw [← ht]
        exact cellOK_append_arena hcell t

theorem capsDesc_unfold (c0 w : Nat) (h : w ≤ c0) (hw : 0 < w) :
    capsDesc c0 w = c0 :: capsDesc (c0 - 1) w := by
  have h1 : c0 + 1 - w = (c0 - w) + 1 := by omega
  have h2 : w + 1 * (c0 - w) = c0 := by omega
  have h3 : c0 - 1 + 1 - w = c0 - w := by omega
  unfold capsDesc
  rw [h1, List.range'_concat, h2, List.reverse_concat, h3]

theorem capsDesc_nil (c0 w : Nat) (h : c0 < w) : capsDesc c0 w = [] := by
  have h1 : c0 + 1 - w = 0 := by omega
  unfold capsDesc
  rw [h1]
  rfl

theorem relaxCaps_mid (ps : List Order) (effCap i : Nat) (o : Order)
    (hi : i < ps.length) (hgetD : ps.getD i default = o) (hwpos : 0 < o.weight)
    (st0 : DPState) (hst0 : DPInv ps effCap i st0) :
    ∀ (n c0 : Nat), c0 + 1 - o.weight = n → o.weight - 1 ≤ c0 → c0 ≤ effCap →
      ∀ st, MidItemInv ps effCap i c0 st0 st →
        MidItemInv ps effCap i (o.weight - 1) st0
          ((capsDesc c0 o.weight).foldl (relaxStep i o.weight o.value) st) := by
  intro n
  induction n with
  | zero =>
    intro c0 hn hcw hce st hmid
    have hlt : c0 < o.weight := by omega
    rw [capsDesc_nil c0 o.weight hlt]
    have hc0 : c0 = o.weight - 1 := by omega
    rw [← hc0]
    exact hmid
  | succ m ih =>
    intro c0 hn hcw hce st hmid
    have hle : o.weight ≤ c0 := by omega
    rw [capsDesc_unfold c0 o.weight hle hwpos, List.foldl_cons]
    have hstep := relaxStep_mid ps effCap i o st0 st hi hgetD hwpos c0 hle hce hst0 hmid
    exact ih (c0 - 1) (by omega) (by omega) (by omega) _ hstep

/-- Processing one item of weight at most `effCap` preserves the DP state
invariant, advancing the item bound. -/
theorem relaxItem_inv (ps : List Order) (effCap i : Nat) (o : Order)
    (hi : i < ps.length) (hgetD : ps.getD i default = o) (hwpos : 0 < o.weight)
    (hweff : o.weight ≤ effCap) (st0 : DPState) (hst0 : DPInv ps effCap i st0) :
    DPInv ps effCap (i + 1) (relaxItem i o.weight o.value effCap st0) := by
  unfold relaxItem
  have hmid0 : MidItemInv ps effCap i effCap st0 st0 := by
    refine ⟨List.prefix_refl _, hst0.1, fun c _ => ⟨rfl, rfl⟩, ?_⟩
    intro c hce hc
    omega
  have hfin := relaxCaps_mid ps effCap i o hi hgetD hwpos st0 hst0
    (effCap + 1 - o.weight) effCap rfl (by omega) (Nat.le_refl _) st0 hmid0
  obtain ⟨hpre, hwf, huntouched, hdone⟩ := hfin
  refine ⟨hwf, ?_⟩
  intro c hce
  rcases Nat.lt_or_ge (o.weight - 1) c with h | h
  · exact hdone c hce h
  · rw [(huntouched c h).2]
    obtain ⟨t, ht⟩ := hpre
    have hcell := cellOK_mono (hst0.2 c hce) (Nat.le_succ i)
    rw [← ht]
    exact cellOK_append_arena hcell t

theorem dpInv_mono {ps : List Order} {effCap k k2 : Nat} {st : DPState}
    (h : DPInv ps effCap k st) (hk : k ≤ k2) : DPInv ps effCap k2 st :=
  ⟨h.1, fun c hc => cellOK_mono (h.2 c hc) hk⟩

theorem dpInv_to_length {ps : List Order} {effCap k : Nat} {st : DPState}
    (h : DPInv ps effCap k st) : DPInv ps effCap ps.length st := by
  refine ⟨h.1, ?_⟩
  intro c hc
  obtain ⟨is, h1, h2, h3, h4⟩ := h.2 c hc
  exact ⟨is, h1, h2, fun j hj => ⟨(h3 j hj).2, (h3 j hj).2⟩, h4⟩

/-- The outer exact-DP loop with a live context always succeeds (pruning only
skips work) and establishes the invariant for the full item list. -/
theorem exactOuter_inv (ps : List Order) (effCap : Nat) :
    ∀ (l : List (Nat × Order)) (st : DPState) (k : Nat),
      (∀ p ∈ l, p.1 < ps.length ∧ ps.getD p.1 default = p.2 ∧ 0 < p.2.weight) →
      l.Pairwise (fun p q => p.1 < q.1) →
      (∀ p ∈ l, k ≤ p.1) →
      DPInv ps effCap k st →
      ∃ st2, exactOuter false effCap l st = .ok st2 ∧ DPInv ps effCap ps.length st2 := by
  intro l
  induction l with
  | nil =>
    intro st k _ _ _ hinv
    exact ⟨st, rfl, dpInv_to_length hinv⟩
  | cons p rest ih =>
    intro st k hitems hpw hge hinv
    obtain ⟨i, o⟩ := p
    obtain ⟨hi, hgetD, hwpos⟩ := hitems (i, o) (List.mem_cons_self _ _)
    have hki : k ≤ i := hge (i, o) (List.mem_cons_self _ _)
    have hrest : ∀ q ∈ rest, q.1 < ps.length ∧ ps.getD q.1 default = q.2 ∧ 0 < q.2.weight :=
      fun q hq => hitems q (List.mem_cons_of_mem _ hq)
    have hpwrest := (List.pairwise_cons.mp hpw).2
    have hgerest : ∀ q ∈ rest, i + 1 ≤ q.1 :=
      fun q hq => (List.pairwise_cons.mp hpw).1 q hq
    have hinvi : DPInv ps effCap i st := dpInv_mono hinv hki
    rw [exactOuter]
    rw [if_neg (by simp)]
    by_cases hov : effCap < o.weight
    · rw [if_pos hov]
      exact ih st (i + 1) hrest hpwrest hgerest (dpInv_mono hinvi (Nat.le_succ i))
    · rw [if_neg hov]
      by_cases hcb : 0 < st.bestValue effCap
      · rw [if_pos hcb]
        by_cases hbreak : st.bestValue effCap + lookaheadValue ((i, o) :: rest) <
            st.bestValue effCap * 11 / 10
        · rw [if_pos hbreak]
          exact ⟨st, rfl, dpInv_to_length hinvi⟩
        · rw [if_neg hbreak]
          by_cases hskip : o.value < st.bestValue effCap / 10
          · rw [if_pos hskip]
            exact ih st (i + 1) hrest hpwrest hgerest (dpInv_mono hinvi (Nat.le_succ i))
          · rw [if_neg hskip]
            exact ih _ (i + 1) hrest hpwrest hgerest
              (relaxItem_inv ps effCap i o hi hgetD hwpos (by omega) st hinvi)
      · rw [if_neg hcb]
        exact ih _ (i + 1) hrest hpwrest hgerest
          (relaxItem_inv ps effCap i o hi hgetD hwpos (by omega) st hinvi)

theorem sumWeights_perm {a b : List Order} (h : a.Perm b) : sumWeights a = sumWeights b :=
  (h.map Order.weight).sum_eq

theorem sumValues_perm {a b : List Order} (h : a.Perm b) : sumValues a = sumValues b :=
  (h.map Order.value).sum_eq

theorem enumFrom_spec (d : Order) :
    ∀ (l : List Order) (n : Nat),
      (∀ p ∈ List.enumFrom n l, n ≤ p.1 ∧ p.1 < n + l.length ∧ l.getD (p.1 - n) d = p.2) ∧
      (List.enumFrom n l).Pairwise (fun p q => p.1 < q.1) := by
  intro l
  induction l with
  | nil => intro n; exact ⟨by simp, by simp⟩
  | cons o rest ih =>
    intro n
    have hstep : List.enumFrom n (o :: rest) = (n, o) :: List.enumFrom (n + 1) rest := rfl
    rw [hstep]
    obtain ⟨ihm, ihp⟩ := ih (n + 1)
    constructor
    · intro p hp
      rcases List.mem_cons.mp hp with rfl | hp2
      · refine ⟨Nat.le_refl n, by simp, ?_⟩
        have : n - n = 0 := by omega
        rw [this, List.getD_cons_zero]
      · obtain ⟨h1, h2, h3⟩ := ihm p hp2
        refine ⟨by omega, by simp; omega, ?_⟩
        obtain ⟨m, hm⟩ : ∃ m, p.1 - n = m + 1 := ⟨p.1 - n - 1, by omega⟩
        rw [hm, List.getD_cons_succ]
        have : m = p.1 - (n + 1) := by omega
        rw [this]
        exact h3
    · refine List.pairwise_cons.mpr ⟨?_, ihp⟩
      intro q hq
      have := (ihm q hq).1
      omega

theorem enum_spec (d : Order) (l : List Order) :
    (∀ p ∈ l.enum, p.1 < l.length ∧ l.getD p.1 d = p.2) ∧
    l.enum.Pairwise (fun p q => p.1 < q.1) := by
  obtain ⟨h1, h2⟩ := enumFrom_spec d l 0
  refine ⟨?_, h2⟩
  intro p hp
  obtain ⟨_, hb, hg⟩ := h1 p hp
  rw [Nat.sub_zero] at hg
  exact ⟨by omega, hg⟩

theorem DPInv_init (ps : List Order) (effCap : Nat) :
    DPInv ps effCap 0 ⟨fun _ => 0, fun _ => none, []⟩ := by
  constructor
  · intro idx node hget
    rw [List.get?_eq_none.mpr (by simp)] at hget
    cases hget
  · intro c _
    exact ⟨[], Chain.nil, List.Pairwise.nil, by simp, by simp [sumWeights_nil]⟩

/-- From the final invariant: the backtracked exact-DP selection is a sublist
of the sorted positive orders and weighs at most `effCap`. -/
theorem exact_selection_facts (ps : List Order) (effCap : Nat) (st : DPState)
    (hinv : DPInv ps effCap ps.length st) :
    (List.map (fun j => ps.getD j default)
        (walkChain st.paths (st.paths.length + 1)
          (st.bestPathIdx (argmaxCap st.bestValue effCap))).reverse).Sublist ps ∧
    sumWeights (List.map (fun j => ps.getD j default)
        (walkChain st.paths (st.paths.length + 1)
          (st.bestPathIdx (argmaxCap st.bestValue effCap))).reverse) ≤ effCap := by
  obtain ⟨hwf, hcells⟩ := hinv
  have hbc : argmaxCap st.bestValue effCap ≤ effCap := argmaxCap_le _ _
  obtain ⟨is, hch, hpw, hb, hwt⟩ := hcells _ hbc
  have hwalk : walkChain st.paths (st.paths.length + 1)
      (st.bestPathIdx (argmaxCap st.bestValue effCap)) = is := by
    refine walkChain_eq hwf hch (st.paths.length + 1) ?_
    intro j hj
    have : Chain st.paths (some j) is := hj ▸ hch
    have := chain_head_lt this
    omega
  rw [hwalk]
  constructor
  · refine map_getD_sublist default ps is.reverse ?_ ?_
    · exact List.pairwise_reverse.mpr hpw
    · intro j hj
      exact (hb j (List.mem_reverse.mp hj)).2
  · have hperm : (List.map (fun j => ps.getD j default) is.reverse).Perm
        (List.map (fun j => ps.getD j default) is) :=
      (List.reverse_perm is).map _
    rw [sumWeights_perm hperm]
    exact hwt.trans hbc

theorem fallbackScan_cons (effCap : Nat) (o : Order) (rest : List Order)
    (init : Option Order) :
    fallbackScan effCap (o :: rest) init =
      if effCap < o.weight then fallbackScan effCap rest init
      else match init with
        | none => fallbackScan effCap rest (some o)
        | some b =>
          if b.value < o.value ∨ (o.value = b.value ∧ o.weight < b.weight) then
            fallbackScan effCap rest (some o)
          else fallbackScan effCap rest (some b) := rfl

theorem fallbackScan_sound (effCap : Nat) :
    ∀ (l : List Order) (init : Option Order) (res : Order),
      fallbackScan effCap l init = some res →
      (res ∈ l ∧ res.weight ≤ effCap) ∨ init = some res := by
  intro l
  induction l with
  | nil =>
    intro init res h
    exact .inr h
  | cons o rest ih =>
    intro init res h
    rw [fallbackScan_cons] at h
    by_cases hov : effCap < o.weight
    · rw [if_pos hov] at h
      rcases ih init res h with ⟨h1, h2⟩ | h1
      · exact .inl ⟨List.mem_cons_of_mem o h1, h2⟩
      · exact .inr h1
    · rw [if_neg hov] at h
      cases init with
      | none =>
        rcases ih (some o) res h with ⟨h1, h2⟩ | h1
        · exact .inl ⟨List.mem_cons_of_mem o h1, h2⟩
        · injection h1 with h1
          exact .inl ⟨by rw [← h1]; exact List.mem_cons_self _ _, by rw [← h1]; omega⟩
      | some b =>
        by_cases hbetter : b.value < o.value ∨ (o.value = b.value ∧ o.weight < b.weight)
        · rw [show (match some b with
              | none => fallbackScan effCap rest (some o)
              | some b =>
                if b.value < o.value ∨ (o.value = b.value ∧ o.weight < b.weight) then
                  fallbackScan effCap rest (some o)
                else fallbackScan effCap rest (some b)) =
              (if b.value < o.value ∨ (o.value = b.value ∧ o.weight < b.weight) then
                fallbackScan effCap rest (some o)
              else fallbackScan effCap rest (some b)) from rfl, if_pos hbetter] at h
          rcases ih (some o) res h with ⟨h1, h2⟩ | h1
          · exact .inl ⟨List.mem_cons_of_mem o h1, h2⟩
          · injection h1 with h1
            exact .inl ⟨by rw [← h1]; exact List.mem_cons_self _ _, by rw [← h1]; omega⟩
        · rw [show (match some b with
              | none => fallbackScan effCap rest (some o)
              | some b =>
                if b.value < o.value ∨ (o.value = b.value ∧ o.weight < b.weight) then
                  fallbackScan effCap rest (some o)
                else fallbackScan effCap rest (some b)) =
              (if b.value < o.value ∨ (o.value = b.value ∧ o.weight < b.weight) then
                fallbackScan effCap rest (some o)
              else fallbackScan effCap rest (some b)) from rfl, if_neg hbetter] at h
          rcases ih (some b) res h with ⟨h1, h2⟩ | h1
          · exact .inl ⟨List.mem_cons_of_mem o h1, h2⟩
          · exact .inr h1

theorem fallbackScan_some_of_some (effCap : Nat) :
    ∀ (l : List Order) (b : Order), ∃ res, fallbackScan effCap l (some b) = some res := by
  intro l
  induction l with
  | nil => intro b; exact ⟨b, rfl⟩
  | cons o rest ih =>
    intro b
    rw [fallbackScan_cons]
    by_cases hov : effCap < o.weight
    · rw [if_pos hov]
      exact ih b
    · rw [if_neg hov]
      by_cases hbetter : b.value < o.value ∨ (o.value = b.value ∧ o.weight < b.weight)
      · rw [show (match some b with
            | none => fallbackScan effCap rest (some o)
            | some b =>
              if b.value < o.value ∨ (o.value = b.value ∧ o.weight < b.weight) then
                fallbackScan effCap rest (some o)
              else fallbackScan effCap rest (some b)) =
            (if b.value < o.value ∨ (o.value = b.value ∧ o.weight < b.weight) then
              fallbackScan effCap rest (some o)
            else fallbackScan effCap rest (some b)) from rfl, if_pos hbetter]
        exact ih o
      · rw [show (match some b with
            | none => fallbackScan effCap rest (some o)
            | some b =>
              if b.value < o.value ∨ (o.value = b.value ∧ o.weight < b.weight) then
                fallbackScan effCap rest (some o)
              else fallbackScan effCap rest (some b)) =
            (if b.value < o.value ∨ (o.value = b.value ∧ o.weight < b.weight) then
              fallbackScan effCap rest (some o)
            else fallbackScan effCap rest (some b)) from rfl, if_neg hbetter]
        exact ih b

theorem fallbackScan_finds (effCap : Nat) :
    ∀ (l : List Order), (∃ o ∈ l, o.weight ≤ effCap) →
      ∃ res, fallbackScan effCap l none = some res := by
  intro l
  induction l with
  | nil =>
    intro h
    obtain ⟨o, ho, _⟩ := h
    cases ho
  | cons o rest ih =>
    intro h
    rw [fallbackScan_cons]
    by_cases hov : effCap < o.weight
    · rw [if_pos hov]
      obtain ⟨q, hq, hqw⟩ := h
      rcases List.mem_cons.mp hq with rfl | hq2
      · omega
      · exact ih ⟨q, hq2, hqw⟩
    · rw [if_neg hov]
      exact fallbackScan_some_of_some effCap rest o

/-- With all item values zero and an all-zero table, one relaxation step is a
no-op. -/
theorem relaxStep_zero (i w : Nat) (st : DPState) (cap : Nat)
    (hbv : ∀ c, st.bestValue c = 0) :
    relaxStep i w 0 st cap = st := by
  unfold relaxStep
  rw [if_neg]
  rw [hbv cap, hbv (cap - w)]
  omega

theorem relaxItem_zero (i w effCap : Nat) (st : DPState)
    (hbv : ∀ c, st.bestValue c = 0) :
    relaxItem i w 0 effCap st = st := by
  unfold relaxItem
  have key : ∀ (l : List Nat), l.foldl (relaxStep i w 0) st = st := by
    intro l
    induction l with
    | nil => rfl
    | cons c rest ih =>
      rw [List.foldl_cons, relaxStep_zero i w st c hbv, ih]
  exact key _

/-- With all item values zero the exact outer loop leaves an all-zero state
unchanged. -/
theorem exactOuter_zero (effCap : Nat) :
    ∀ (l : List (Nat × Order)) (st : DPState),
      (∀ p ∈ l, p.2.value = 0) → (∀ c, st.bestValue c = 0) →
      exactOuter false effCap l st = .ok st := by
  intro l
  induction l with
  | nil => intro st _ _; rfl
  | cons p rest ih =>
    intro st hz hbv
    obtain ⟨i, o⟩ := p
    have hzo : o.value = 0 := hz (i, o) (List.mem_cons_self _ _)
    have hzrest : ∀ q ∈ rest, q.2.value = 0 := fun q hq => hz q (List.mem_cons_of_mem _ hq)
    rw [exactOuter, if_neg (by simp)]
    by_cases hov : effCap < o.weight
    · rw [if_pos hov]
      exact ih st hzrest hbv
    · rw [if_neg hov]
      rw [if_neg (by rw [hbv effCap]; omega)]
      rw [hzo, relaxItem_zero i o.weight effCap st hbv]
      exact ih st hzrest hbv

theorem getD_mem {l : List Order} {j : Nat} (h : j < l.length) (d : Order) : l.getD j d ∈ l := by
  rw [List.getD_eq_getElem l d h]
  exact List.getElem_mem h

theorem zero_pos_partition (F : List Order) :
    ((F.filter (fun o => decide (o.weight = 0))) ++
      (F.filter (fun o => decide (0 < o.weight)))).Perm F := by
  have h2 : F.filter (fun o => !decide (o.weight = 0)) =
      F.filter (fun o => decide (0 < o.weight)) := by
    refine List.filter_congr ?_
    intro o _
    by_cases hz : o.weight = 0
    · simp [hz]
    · simp [hz, Nat.pos_of_ne_zero hz]
  have h := List.filter_append_perm (fun o => decide (o.weight = 0)) F
  rw [h2] at h
  exact h

theorem zeros_filter_eq (orders : List Order) (cap : Nat) :
    (orders.filter (fun o => decide (o.weight ≤ cap))).filter (fun o => decide (o.weight = 0)) =
      orders.filter (fun o => decide (o.weight = 0)) := by
  rw [List.filter_filter]
  refine List.filter_congr ?_
  intro o _
  by_cases hz : o.weight = 0
  · simp [hz]
  · simp [hz]

theorem sumWeights_zeros (F : List Order) :
    sumWeights (F.filter (fun o => decide (o.weight = 0))) = 0 := by
  refine sumWeights_eq_zero ?_
  intro o ho
  exact of_decide_eq_true (List.mem_filter.mp ho).2

theorem pos_filter_self (F : List Order) :
    (F.filter (fun o => decide (0 < o.weight))).filter (fun o => decide (0 < o.weight)) =
      F.filter (fun o => decide (0 < o.weight)) :=
  List.filter_eq_self.mpr fun o ho => (List.mem_filter.mp ho).2

/-- Master characterisation of every successful optimizer run: the reported
weight respects the capacity, the plan is a sub-multiset of the input, and
(for positive capacity) the plan is the input's zero-weight orders, in order,
followed by positive-weight selections only. -/
theorem optimizer_ok_spec (orders : List Order) (rid : String) (cap : Nat)
    (mp : Option MemPool) (plan : DeliveryPlan)
    (h : selectOrdersForDeliveryOptimized false orders rid cap mp = .ok plan) :
    plan.totalWeight ≤ cap ∧
    plan.orders.Subperm orders ∧
    (cap ≠ 0 →
      ∃ rest, plan.orders = orders.filter (fun o => decide (o.weight = 0)) ++ rest ∧
        ∀ o ∈ rest, 0 < o.weight) := by
  simp only [selectOrdersForDeliveryOptimized, checkoutOrders_eq_nil, checkoutPaths_eq_nil,
    List.nil_append] at h
  by_cases h1 : cap = 0 ∨ orders = []
  · rw [if_pos h1] at h
    injection h with h
    subst h
    refine ⟨Nat.zero_le _, List.nil_subperm, ?_⟩
    intro hcap
    rcases h1 with h1 | h1
    · exact absurd h1 hcap
    · subst h1
      exact ⟨[], by simp, by simp⟩
  · rw [if_neg h1] at h
    have hcapne : cap ≠ 0 := fun hc => h1 (.inl hc)
    by_cases h2 : orders.filter (fun o => decide (o.weight ≤ cap)) = []
    · rw [if_pos h2] at h
      injection h with h
      subst h
      refine ⟨Nat.zero_le _, List.nil_subperm, ?_⟩
      intro _
      refine ⟨[], ?_, by simp⟩
      rw [List.append_nil, ← zeros_filter_eq orders cap, h2]
      rfl
    · rw [if_neg h2] at h
      have hZP := zero_pos_partition (orders.filter (fun o => decide (o.weight ≤ cap)))
      have hsubF : (orders.filter (fun o => decide (o.weight ≤ cap))).Sublist orders :=
        List.filter_sublist orders
      have hZeq := zeros_filter_eq orders cap
      have hZ0 := sumWeights_zeros (orders.filter (fun o => decide (o.weight ≤ cap)))
      have hPpos : ∀ o ∈ (orders.filter (fun o => decide (o.weight ≤ cap))).filter
          (fun o => decide (0 < o.weight)), 0 < o.weight :=
        fun o ho => of_decide_eq_true (List.mem_filter.mp ho).2
      have hPcap : ∀ o ∈ (orders.filter (fun o => decide (o.weight ≤ cap))).filter
          (fun o => decide (0 < o.weight)), o.weight ≤ cap := by
        intro o ho
        have := (List.mem_filter.mp ho).1
        exact of_decide_eq_true (List.mem_filter.mp this).2
      by_cases h3 : (orders.filter (fun o => decide (o.weight ≤ cap))).filter
          (fun o => decide (0 < o.weight)) = []
      · rw [if_pos h3] at h
        injection h with h
        subst h
        refine ⟨Nat.zero_le _, ?_, ?_⟩
        · show ((orders.filter (fun o => decide (o.weight ≤ cap))).filter
            (fun o => decide (o.weight = 0))).Subperm orders
          exact ((List.filter_sublist _).trans hsubF).subperm
        · intro _
          refine ⟨[], ?_, by simp⟩
          show (orders.filter (fun o => decide (o.weight ≤ cap))).filter
              (fun o => decide (o.weight = 0)) =
            orders.filter (fun o => decide (o.weight = 0)) ++ []
          rw [List.append_nil, hZeq]
      · rw [if_neg h3] at h
        rcases hst : chooseStrategy ((orders.filter (fun o => decide (o.weight ≤ cap))).filter
            (fun o => decide (0 < o.weight))).length cap with _ | _ | _ | _
        · -- greedy tier
          rw [hst] at h
          obtain ⟨taken, heq, hsub, hwle, -⟩ := selectOrdersGreedy_spec false
            ((orders.filter (fun o => decide (o.weight ≤ cap))).filter
              (fun o => decide (0 < o.weight)))
            ((orders.filter (fun o => decide (o.weight ≤ cap))).filter
              (fun o => decide (o.weight = 0)))
            rid cap
            (sumValues ((orders.filter (fun o => decide (o.weight ≤ cap))).filter
              (fun o => decide (o.weight = 0))))
          rw [heq] at h
          injection h with h
          subst h
          rw [pos_filter_self] at hsub
          refine ⟨hwle, ?_, ?_⟩
          · refine List.Subperm.trans ?_ (hZP.subperm.trans hsubF.subperm)
            exact (List.subperm_append_left _).mpr hsub
          · intro _
            refine ⟨taken, ?_, ?_⟩
            · rw [hZeq]
            · intro o ho
              exact hPpos o (hsub.subset ho)
        · -- core tier
          rw [hst] at h
          obtain ⟨coreSel, fill, heq, hsub, hwcore, hwfill⟩ := selectOrdersCore_spec
            ((orders.filter (fun o => decide (o.weight ≤ cap))).filter
              (fun o => decide (0 < o.weight)))
            ((orders.filter (fun o => decide (o.weight ≤ cap))).filter
              (fun o => decide (o.weight = 0)))
            rid cap
            (sumValues ((orders.filter (fun o => decide (o.weight ≤ cap))).filter
              (fun o => decide (o.weight = 0))))
            mp h3
          rw [heq] at h
          injection h with h
          subst h
          dsimp only
          rw [sumWeights_append] at hwfill
          rw [sumWeights_append, sumWeights_append, hZ0]
          rw [hZ0] at hwfill
          refine ⟨by omega, ?_, ?_⟩
          · rw [List.append_assoc]
            refine List.Subperm.trans ?_ (hZP.subperm.trans hsubF.subperm)
            exact (List.subperm_append_left _).mpr hsub
          · intro _
            refine ⟨coreSel ++ fill, ?_, ?_⟩
            · rw [List.append_assoc, hZeq]
            · intro o ho
              exact hPpos o (hsub.subset ho)
        · -- fptas tier
          rw [hst] at h
          obtain ⟨selP, heq, hsub, hwle, -⟩ := selectOrdersFPTAS_spec
            ((orders.filter (fun o => decide (o.weight ≤ cap))).filter
              (fun o => decide (0 < o.weight)))
            ((orders.filter (fun o => decide (o.weight ≤ cap))).filter
              (fun o => decide (o.weight = 0)))
            rid cap
            (sumValues ((orders.filter (fun o => decide (o.weight ≤ cap))).filter
              (fun o => decide (o.weight = 0))))
            mp h3
          rw [heq] at h
          injection h with h
          subst h
          dsimp only
          rw [sumWeights_append, hZ0]
          refine ⟨by omega, ?_, ?_⟩
          · refine List.Subperm.trans ?_ (hZP.subperm.trans hsubF.subperm)
            exact (List.subperm_append_left _).mpr hsub
          · intro _
            refine ⟨selP.map Prod.fst, ?_, ?_⟩
            · rw [hZeq]
            · intro o ho
              exact hPpos o (hsub.subset ho)
        · -- exact tier
          rw [hst] at h
          by_cases h4 : min cap (sumWeights ((orders.filter
              (fun o => decide (o.weight ≤ cap))).filter (fun o => decide (0 < o.weight)))) = 0
          · rw [if_pos h4] at h
            injection h with h
            subst h
            refine ⟨Nat.zero_le _, ?_, ?_⟩
            · exact ((List.filter_sublist _).trans hsubF).subperm
            · intro _
              refine ⟨[], ?_, by simp⟩
              show (orders.filter (fun o => decide (o.weight ≤ cap))).filter
                  (fun o => decide (o.weight = 0)) =
                orders.filter (fun o => decide (o.weight = 0)) ++ []
              rw [List.append_nil, hZeq]
          · rw [if_neg h4] at h
            have hps : ∀ o ∈ sortByRatio ((orders.filter (fun o => decide (o.weight ≤ cap))).filter
                (fun o => decide (0 < o.weight))), 0 < o.weight := by
              intro o ho
              exact hPpos o (mem_sortByRatio.mp ho)
            obtain ⟨hen, hpw⟩ := enum_spec default (sortByRatio ((orders.filter
              (fun o => decide (o.weight ≤ cap))).filter (fun o => decide (0 < o.weight))))
            obtain ⟨st2, hloop, hinv⟩ := exactOuter_inv
              (sortByRatio ((orders.filter (fun o => decide (o.weight ≤ cap))).filter
                (fun o => decide (0 < o.weight))))
              (min cap (sumWeights ((orders.filter (fun o => decide (o.weight ≤ cap))).filter
                (fun o => decide (0 < o.weight)))))
              (sortByRatio ((orders.filter (fun o => decide (o.weight ≤ cap))).filter
                (fun o => decide (0 < o.weight)))).enum
              ⟨fun _ => 0, fun _ => none, []⟩ 0
              (by
                intro p hp
                obtain ⟨hb, hg⟩ := hen p hp
                refine ⟨hb, hg, ?_⟩
                rw [← hg]
                exact hps _ (getD_mem hb default))
              hpw (fun p _ => Nat.zero_le _) (DPInv_init _ _)
            simp only [hloop] at h
            obtain ⟨hMsub, hMw⟩ := exact_selection_facts _ _ st2 hinv
            have hMcap : sumWeights (List.map (fun j => (sortByRatio ((orders.filter
                (fun o => decide (o.weight ≤ cap))).filter
                (fun o => decide (0 < o.weight)))).getD j default)
                (walkChain st2.paths (st2.paths.length + 1)
                  (st2.bestPathIdx (argmaxCap st2.bestValue (min cap
                    (sumWeights ((orders.filter (fun o => decide (o.weight ≤ cap))).filter
                      (fun o => decide (0 < o.weight)))))))).reverse) ≤ cap :=
              hMw.trans (Nat.min_le_left _ _)
            have hMmem : ∀ o ∈ List.map (fun j => (sortByRatio ((orders.filter
                (fun o => decide (o.weight ≤ cap))).filter
                (fun o => decide (0 < o.weight)))).getD j default)
                (walkChain st2.paths (st2.paths.length + 1)
                  (st2.bestPathIdx (argmaxCap st2.bestValue (min cap
                    (sumWeights ((orders.filter (fun o => decide (o.weight ≤ cap))).filter
                      (fun o => decide (0 < o.weight)))))))).reverse,
                o ∈ (orders.filter (fun o => decide (o.weight ≤ cap))).filter
                  (fun o => decide (0 < o.weight)) := by
              intro o ho
              exact (sortByRatio_perm _).subset (hMsub.subset ho)
            by_cases h5 : (((orders.filter (fun o => decide (o.weight ≤ cap))).filter
                  (fun o => decide (o.weight = 0))) ++
                (List.map (fun j => (sortByRatio ((orders.filter
                    (fun o => decide (o.weight ≤ cap))).filter
                    (fun o => decide (0 < o.weight)))).getD j default)
                  (walkChain st2.paths (st2.paths.length + 1)
                    (st2.bestPathIdx (argmaxCap st2.bestValue (min cap
                      (sumWeights ((orders.filter (fun o => decide (o.weight ≤ cap))).filter
                        (fun o => decide (0 < o.weight)))))))).reverse)).length =
              ((orders.filter (fun o => decide (o.weight ≤ cap))).filter
                (fun o => decide (o.weight = 0))).length
            · rw [if_pos h5] at h
              have hMnil : List.map (fun j => (sortByRatio ((orders.filter
                  (fun o => decide (o.weight ≤ cap))).filter
                  (fun o => decide (0 < o.weight)))).getD j default)
                  (walkChain st2.paths (st2.paths.length + 1)
                    (st2.bestPathIdx (argmaxCap st2.bestValue (min cap
                      (sumWeights ((orders.filter (fun o => decide (o.weight ≤ cap))).filter
                        (fun o => decide (0 < o.weight)))))))).reverse = [] := by
                rw [List.length_append] at h5
                have hlen0 : (List.map (fun j => (sortByRatio ((orders.filter
                    (fun o => decide (o.weight ≤ cap))).filter
                    (fun o => decide (0 < o.weight)))).getD j default)
                    (walkChain st2.paths (st2.paths.length + 1)
                      (st2.bestPathIdx (argmaxCap st2.bestValue (min cap
                        (sumWeights ((orders.filter (fun o => decide (o.weight ≤ cap))).filter
                          (fun o => decide (0 < o.weight)))))))).reverse).length = 0 := by
                  omega
                exact List.eq_nil_of_length_eq_zero hlen0
              rcases hscan : fallbackScan (min cap (sumWeights ((orders.filter
                  (fun o => decide (o.weight ≤ cap))).filter (fun o => decide (0 < o.weight)))))
                  (sortByRatio ((orders.filter (fun o => decide (o.weight ≤ cap))).filter
                    (fun o => decide (0 < o.weight)))) none with _ | fb
              · rw [hscan] at h
                injection h with h
                subst h
                dsimp only
                rw [hMnil, List.append_nil, hZ0]
                refine ⟨by omega, ?_, ?_⟩
                · exact ((List.filter_sublist _).trans hsubF).subperm
                · intro _
                  refine ⟨[], ?_, by simp⟩
                  rw [List.append_nil, hZeq]
              · rw [hscan] at h
                injection h with h
                subst h
                dsimp only
                have hfb : fb ∈ sortByRatio ((orders.filter (fun o => decide (o.weight ≤ cap))).filter
                    (fun o => decide (0 < o.weight))) ∧
                    fb.weight ≤ min cap (sumWeights ((orders.filter
                      (fun o => decide (o.weight ≤ cap))).filter
                      (fun o => decide (0 < o.weight)))) := by
                  rcases fallbackScan_sound _ _ _ _ hscan with hgood | hbad
                  · exact hgood
                  · cases hbad
                have hfbP : fb ∈ (orders.filter (fun o => decide (o.weight ≤ cap))).filter
                    (fun o => decide (0 < o.weight)) := mem_sortByRatio.mp hfb.1
                rw [hMnil, List.append_nil, sumWeights_append, hZ0, sumWeights_cons, sumWeights_nil]
                have hfbcap : fb.weight ≤ cap := hfb.2.trans (Nat.min_le_left _ _)
                refine ⟨by omega, ?_, ?_⟩
                · refine List.Subperm.trans ?_ (hZP.subperm.trans hsubF.subperm)
                  refine (List.subperm_append_left _).mpr ?_
                  exact (List.singleton_sublist.mpr hfbP).subperm
                · intro _
                  refine ⟨[fb], ?_, ?_⟩
                  · rw [hZeq]
                  · intro o ho
                    have : o = fb := by simpa using ho
                    rw [this]
                    exact hPpos fb hfbP
            · rw [if_neg h5] at h
              injection h with h
              subst h
              dsimp only
              rw [sumWeights_append, hZ0]
              refine ⟨by omega, ?_, ?_⟩
              · refine List.Subperm.trans ?_ (hZP.subperm.trans hsubF.subperm)
                refine (List.subperm_append_left _).mpr ?_
                exact (hMsub.subperm).trans (sortByRatio_perm _).subperm
              · intro _
                refine ⟨List.map (fun j => (sortByRatio ((orders.filter
                    (fun o => decide (o.weight ≤ cap))).filter
                    (fun o => decide (0 < o.weight)))).getD j default)
                    (walkChain st2.paths (st2.paths.length + 1)
                      (st2.bestPathIdx (argmaxCap st2.bestValue (min cap
                        (sumWeights ((orders.filter (fun o => decide (o.weight ≤ cap))).filter
                          (fun o => decide (0 < o.weight)))))))).reverse, ?_, ?_⟩
                · rw [hZeq]
                · intro o ho
                  exact hPpos o (hMmem o ho)

theorem selectOrdersGreedy_ctx_irrel (ctx : Bool) (po zw : List Order) (rid : String)
    (cap base : Nat) :
    selectOrdersGreedy ctx po zw rid cap base = selectOrdersGreedy false po zw rid cap base :=
  rfl

theorem selectOrdersFPTAS_cancelled (po zw : List Order) (rid : String) (cap base : Nat)
    (mp : Option MemPool) (hpo : po ≠ []) :
    selectOrdersFPTAS true po zw rid cap base mp = .error .canceled := by
  obtain ⟨o, rest, rfl⟩ : ∃ o rest, po = o :: rest := by
    cases po with
    | nil => exact absurd rfl hpo
    | cons o rest => exact ⟨o, rest, rfl⟩
  simp only [selectOrdersFPTAS, if_neg hpo]
  have hsc : fptasScaled (o :: rest) =
      (o, o.value / fptasK (o :: rest)) :: rest.map (fun q => (q, q.value / fptasK (o :: rest))) :=
    rfl
  rw [hsc, fptasLoop_cancelled]

theorem exactOuter_cancelled (effCap : Nat) (p : Nat × Order) (rest : List (Nat × Order))
    (st : DPState) : exactOuter true effCap (p :: rest) st = .error .canceled := by
  obtain ⟨i, o⟩ := p
  rw [exactOuter, if_pos rfl]

/-- A successful run with a cancelled context coincides with the live-context
run: the paths that poll the context fail instead of returning a plan. -/
theorem optimizer_cancelled_ok (orders : List Order) (rid : String) (cap : Nat)
    (mp : Option MemPool) (plan : DeliveryPlan)
    (h : selectOrdersForDeliveryOptimized true orders rid cap mp = .ok plan) :
    selectOrdersForDeliveryOptimized false orders rid cap mp = .ok plan := by
  simp only [selectOrdersForDeliveryOptimized, checkoutOrders_eq_nil, checkoutPaths_eq_nil,
    List.nil_append] at h ⊢
  by_cases h1 : cap = 0 ∨ orders = []
  · rw [if_pos h1] at h ⊢
    exact h
  · rw [if_neg h1] at h ⊢
    by_cases h2 : orders.filter (fun o => decide (o.weight ≤ cap)) = []
    · rw [if_pos h2] at h ⊢
      exact h
    · rw [if_neg h2] at h ⊢
      by_cases h3 : (orders.filter (fun o => decide (o.weight ≤ cap))).filter
          (fun o => decide (0 < o.weight)) = []
      · rw [if_pos h3] at h ⊢
        exact h
      · rw [if_neg h3] at h ⊢
        rcases hst : chooseStrategy ((orders.filter (fun o => decide (o.weight ≤ cap))).filter
            (fun o => decide (0 < o.weight))).length cap with _ | _ | _ | _
        · rw [hst] at h ⊢
          rw [selectOrdersGreedy_ctx_irrel] at h
          exact h
        · rw [hst] at h
          rw [selectOrdersCore_cancelled _ _ _ _ _ _ h3] at h
          cases h
        · rw [hst] at h
          rw [selectOrdersFPTAS_cancelled _ _ _ _ _ _ h3] at h
          cases h
        · rw [hst] at h ⊢
          by_cases h4 : min cap (sumWeights ((orders.filter
              (fun o => decide (o.weight ≤ cap))).filter (fun o => decide (0 < o.weight)))) = 0
          · rw [if_pos h4] at h ⊢
            exact h
          · rw [if_neg h4] at h ⊢
            obtain ⟨p, rest, hen⟩ : ∃ p rest, (sortByRatio ((orders.filter
                (fun o => decide (o.weight ≤ cap))).filter
                (fun o => decide (0 < o.weight)))).enum = p :: rest := by
              cases hE : (sortByRatio ((orders.filter (fun o => decide (o.weight ≤ cap))).filter
                  (fun o => decide (0 < o.weight)))).enum with
              | nil =>
                exfalso
                have hlen := congrArg List.length hE
                rw [List.enum_length] at hlen
                rw [sortByRatio_length] at hlen
                exact h3 (List.eq_nil_of_length_eq_zero hlen)
              | cons p rest => exact ⟨p, rest, rfl⟩
            rw [hen, exactOuter_cancelled] at h
            cases h

/-- Claim C2: on every input with positive capacity on which the optimizer
returns a plan without error — whatever the context state and whichever
solver tier ran, including the FPTAS tier's parent-table backtracking — the
plan's total weight is at most the capacity. -/
theorem c2_total_weight_within_capacity (ctx : Bool) (orders : List Order) (rid : String)
    (cap : Nat) (mp : Option MemPool) (plan : DeliveryPlan) (hcap : 0 < cap)
    (h : selectOrdersForDeliveryOptimized ctx orders rid cap mp = .ok plan) :
    plan.totalWeight ≤ cap := by
  cases ctx with
  | false => exact (optimizer_ok_spec orders rid cap mp plan h).1
  | true =>
    exact (optimizer_ok_spec orders rid cap mp plan (optimizer_cancelled_ok _ _ _ _ _ h)).1

theorem c2_witness :
    (0 : Nat) < 5 ∧
    ({ robotID := "r", totalWeight := 2, totalValue := 3,
       orders := [⟨1, 2, 3⟩] } : DeliveryPlan).totalWeight ≤ 5 :=
  ⟨by decide,
   c2_total_weight_within_capacity false [⟨1, 2, 3⟩] "r" 5 none _ (by decide) rfl⟩

/-- Claim C10: every successful plan's order list is a sub-multiset of the
input order list — each listed order is an input order and no input order is
used more often than it occurs in the input. -/
theorem c10_output_submultiset (ctx : Bool) (orders : List Order) (rid : String)
    (cap : Nat) (mp : Option MemPool) (plan : DeliveryPlan)
    (h : selectOrdersForDeliveryOptimized ctx orders rid cap mp = .ok plan) :
    plan.orders.Subperm orders := by
  cases ctx with
  | false => exact (optimizer_ok_spec orders rid cap mp plan h).2.1
  | true =>
    exact (optimizer_ok_spec orders rid cap mp plan (optimizer_cancelled_ok _ _ _ _ _ h)).2.1

theorem c10_witness :
    ({ robotID := "r", totalWeight := 2, totalValue := 5,
       orders := [⟨2, 2, 5⟩] } : DeliveryPlan).orders.Subperm [⟨1, 1, 1⟩, ⟨2, 2, 5⟩] :=
  c10_output_submultiset false [⟨1, 1, 1⟩, ⟨2, 2, 5⟩] "r" 2 none _ rfl

/-- Claim C4, amended: for every input with positive capacity on which the
optimizer returns a plan, the plan's order list is exactly the input's
zero-weight orders, in their original relative order, followed by
positive-weight selections only; with capacity 0 the optimizer instead
short-circuits to the empty plan and the zero-weight orders are dropped. -/
theorem c4_zero_weight_prefix_amended (ctx : Bool) (orders : List Order) (rid : String)
    (cap : Nat) (mp : Option MemPool) (plan : DeliveryPlan) (hcap : cap ≠ 0)
    (h : selectOrdersForDeliveryOptimized ctx orders rid cap mp = .ok plan) :
    ∃ rest, plan.orders = orders.filter (fun o => decide (o.weight = 0)) ++ rest ∧
      ∀ o ∈ rest, 0 < o.weight := by
  cases ctx with
  | false => exact (optimizer_ok_spec orders rid cap mp plan h).2.2 hcap
  | true =>
    exact (optimizer_ok_spec orders rid cap mp plan
      (optimizer_cancelled_ok _ _ _ _ _ h)).2.2 hcap

theorem c4_amended_witness :
    ∃ rest, (DeliveryPlan.mk "r" 2 10 [⟨1, 0, 7⟩, ⟨2, 2, 3⟩]).orders =
      ([⟨1, 0, 7⟩, ⟨2, 2, 3⟩] : List Order).filter (fun o => decide (o.weight = 0)) ++ rest ∧
      ∀ o ∈ rest, 0 < o.weight :=
  c4_zero_weight_prefix_amended false [⟨1, 0, 7⟩, ⟨2, 2, 3⟩] "r" 5 none _ (by decide) rfl

/-- The true optimal total value achievable for the input: the best value of
any sub-list of the orders whose total weight fits the capacity. -/
def optimalValue (orders : List Order) (cap : Nat) : Nat :=
  ((orders.sublists).filter (fun S => decide (sumWeights S ≤ cap))).foldl
    (fun acc S => max acc (sumValues S)) 0

theorem foldl_max_f_init_le {α : Type} (f : α → Nat) :
    ∀ (l : List α) (init : Nat), init ≤ l.foldl (fun a x => max a (f x)) init := by
  intro l
  induction l with
  | nil => intro init; exact le_refl _
  | cons x xs ih => intro init; exact le_trans (le_max_left init (f x)) (ih _)

theorem foldl_max_f_ge {α : Type} (f : α → Nat) :
    ∀ (l : List α) (init : Nat) (x : α), x ∈ l →
      f x ≤ l.foldl (fun a y => max a (f y)) init := by
  intro l
  induction l with
  | nil => intro init x hx; cases hx
  | cons y ys ih =>
    intro init x hx
    rcases List.mem_cons.mp hx with h | h
    · subst h
      exact le_trans (le_max_right init (f x)) (foldl_max_f_init_le f ys _)
    · exact ih _ _ h

theorem foldl_max_f_attained {α : Type} (f : α → Nat) :
    ∀ (l : List α) (init : Nat),
      l.foldl (fun a y => max a (f y)) init = init ∨
      ∃ x ∈ l, l.foldl (fun a y => max a (f y)) init = f x := by
  intro l
  induction l with
  | nil => intro init; exact Or.inl rfl
  | cons y ys ih =>
    intro init
    rcases ih (max init (f y)) with h | ⟨x, hx, hfx⟩
    · rcases max_choice init (f y) with hm | hm
      · exact Or.inl (by simp only [List.foldl_cons]; rw [h, hm])
      · exact Or.inr ⟨y, List.mem_cons_self _ _, by simp only [List.foldl_cons]; rw [h, hm]⟩
    · exact Or.inr ⟨x, List.mem_cons_of_mem _ hx, by simp only [List.foldl_cons]; exact hfx⟩

theorem optimalValue_ge {S orders : List Order} {cap : Nat} (hS : S.Sublist orders)
    (hw : sumWeights S ≤ cap) : sumValues S ≤ optimalValue orders cap := by
  simp only [optimalValue]
  exact foldl_max_f_ge sumValues _ 0 S
    (List.mem_filter.mpr ⟨List.mem_sublists.mpr hS, decide_eq_true hw⟩)

theorem optimalValue_attained (orders : List Order) (cap : Nat) :
    optimalValue orders cap = 0 ∨
    ∃ S, S.Sublist orders ∧ sumWeights S ≤ cap ∧ sumValues S = optimalValue orders cap := by
  simp only [optimalValue]
  rcases foldl_max_f_attained sumValues
      ((orders.sublists).filter (fun S => decide (sumWeights S ≤ cap))) 0 with h | ⟨S, hS, hfS⟩
  · exact Or.inl h
  · have hm := List.mem_filter.mp hS
    exact Or.inr ⟨S, List.mem_sublists.mp hm.1, of_decide_eq_true hm.2, hfS.symm⟩

/-- Claim C5: whenever the strategy selector routes the input to the FPTAS
tier, the returned plan's reported total value is within 10 percent of the
true optimum: `9 * OPT ≤ 10 * plan.totalValue`. -/
theorem c5_fptas_within_ten_percent (orders : List Order) (rid : String) (cap : Nat)
    (mp : Option MemPool) (plan : DeliveryPlan)
    (hstrat : chooseStrategy ((orders.filter (fun o => decide (o.weight ≤ cap))).filter
      (fun o => decide (0 < o.weight))).length cap = Strategy.fptas)
    (h : selectOrdersForDeliveryOptimized false orders rid cap mp = .ok plan) :
    9 * optimalValue orders cap ≤ 10 * plan.totalValue := by
  have hng : ¬(((orders.filter (fun o => decide (o.weight ≤ cap))).filter
      (fun o => decide (0 < o.weight))).length ≤ 5 ∨ cap ≤ 20) := by
    intro hc
    rw [chooseStrategy, if_pos hc] at hstrat
    exact absurd hstrat (by decide)
  have hn5 : ¬ ((orders.filter (fun o => decide (o.weight ≤ cap))).filter
      (fun o => decide (0 < o.weight))).length ≤ 5 := fun hc => hng (Or.inl hc)
  have hc20 : ¬ cap ≤ 20 := fun hc => hng (Or.inr hc)
  have h1 : ¬(cap = 0 ∨ orders = []) := by
    rintro (hc | he)
    · exact hc20 (by omega)
    · exact hn5 (by rw [he]; simp)
  have h2 : ¬ orders.filter (fun o => decide (o.weight ≤ cap)) = [] := by
    intro he
    exact hn5 (by rw [he]; simp)
  have h3 : ¬ (orders.filter (fun o => decide (o.weight ≤ cap))).filter
      (fun o => decide (0 < o.weight)) = [] := by
    intro he
    exact hn5 (by rw [he]; simp)
  simp only [selectOrdersForDeliveryOptimized, checkoutOrders_eq_nil, checkoutPaths_eq_nil,
    List.nil_append] at h
  rw [if_neg h1, if_neg h2, if_neg h3, hstrat] at h
  obtain ⟨selP, heq, hsub, hwle, happrox⟩ := selectOrdersFPTAS_spec
    ((orders.filter (fun o => decide (o.weight ≤ cap))).filter
      (fun o => decide (0 < o.weight)))
    ((orders.filter (fun o => decide (o.weight ≤ cap))).filter
      (fun o => decide (o.weight = 0)))
    rid cap
    (sumValues ((orders.filter (fun o => decide (o.weight ≤ cap))).filter
      (fun o => decide (o.weight = 0))))
    mp h3
  rw [heq] at h
  injection h with h
  subst h
  dsimp only
  rw [sumValues_append]
  rcases optimalValue_attained orders cap with hM | ⟨S, hSsub, hSw, hSval⟩
  · rw [hM]
    exact Nat.zero_le _
  · have hvalsplit : sumValues S = sumValues (S.filter (fun o => decide (o.weight = 0))) +
        sumValues (S.filter (fun o => decide (0 < o.weight))) := by
      rw [← sumValues_perm (zero_pos_partition S), sumValues_append]
    have hZle : sumValues (S.filter (fun o => decide (o.weight = 0))) ≤
        sumValues ((orders.filter (fun o => decide (o.weight ≤ cap))).filter
          (fun o => decide (o.weight = 0))) := by
      rw [zeros_filter_eq]
      exact sumValues_sublist (hSsub.filter _)
    have hfs : S.filter (fun o => decide (o.weight ≤ cap)) = S :=
      List.filter_eq_self.mpr
        (fun o ho => decide_eq_true (le_trans (weight_le_sumWeights ho) hSw))
    have hSF : S.Sublist (orders.filter (fun o => decide (o.weight ≤ cap))) :=
      hfs ▸ hSsub.filter _
    have hSposP : (S.filter (fun o => decide (0 < o.weight))).Sublist
        ((orders.filter (fun o => decide (o.weight ≤ cap))).filter
          (fun o => decide (0 < o.weight))) := hSF.filter _
    have hSposW : sumWeights (S.filter (fun o => decide (0 < o.weight))) ≤ cap :=
      le_trans (sumWeights_sublist (List.filter_sublist _)) hSw
    have h10 := happrox _ hSposP hSposW
    have hmaxle : ((((orders.filter (fun o => decide (o.weight ≤ cap))).filter
        (fun o => decide (0 < o.weight))).map Order.value).foldl max 0) ≤
        optimalValue orders cap := by
      by_cases hz : ((((orders.filter (fun o => decide (o.weight ≤ cap))).filter
          (fun o => decide (0 < o.weight))).map Order.value).foldl max 0) = 0
      · rw [hz]
        exact Nat.zero_le _
      · have hmem := foldl_max_pos_mem _ (Nat.pos_of_ne_zero hz)
        rcases List.mem_map.mp hmem with ⟨o, hoP, hov⟩
        have hoF : o ∈ orders.filter (fun o => decide (o.weight ≤ cap)) :=
          (List.mem_filter.mp hoP).1
        have hoOrd : o ∈ orders := (List.mem_filter.mp hoF).1
        have hoW : o.weight ≤ cap := of_decide_eq_true (List.mem_filter.mp hoF).2
        have hw1 : sumWeights [o] ≤ cap := by
          rw [sumWeights_cons, sumWeights_nil]
          omega
        have hle := optimalValue_ge (List.singleton_sublist.mpr hoOrd) hw1
        rw [← hov]
        have hv : sumValues [o] = o.value := by
          rw [sumValues_cons, sumValues_nil]
          omega
        rw [← hv]
        exact hle
    omega

theorem c5_witness :
    chooseStrategy ((([⟨1, 100, 6⟩, ⟨2, 100, 6⟩, ⟨3, 100, 6⟩, ⟨4, 100, 6⟩, ⟨5, 100, 6⟩,
        ⟨6, 100, 6⟩] : List Order).filter (fun o => decide (o.weight ≤ 501))).filter
      (fun o => decide (0 < o.weight))).length 501 = Strategy.fptas ∧
    9 * optimalValue [⟨1, 100, 6⟩, ⟨2, 100, 6⟩, ⟨3, 100, 6⟩, ⟨4, 100, 6⟩, ⟨5, 100, 6⟩,
        ⟨6, 100, 6⟩] 501 ≤
      10 * (DeliveryPlan.mk "r" 500 30
        [⟨5, 100, 6⟩, ⟨4, 100, 6⟩, ⟨3, 100, 6⟩, ⟨2, 100, 6⟩, ⟨1, 100, 6⟩]).totalValue :=
  ⟨rfl,
   c5_fptas_within_ten_percent
     [⟨1, 100, 6⟩, ⟨2, 100, 6⟩, ⟨3, 100, 6⟩, ⟨4, 100, 6⟩, ⟨5, 100, 6⟩, ⟨6, 100, 6⟩]
     "r" 501 none _ rfl rfl⟩
